import Mathlib

set_option maxRecDepth 8000

/-!
Shallow embedding of the bit-level arithmetic engine of the RISC-V
numeric-operations simulator (`part1_foundation.py` … `part7_float_arithmetic.py`).

A Python `BitVector` is modelled as a `List Bool` in source order: index 0 is
the most-significant bit, `true`/`false` stand for the bits 1/0.  Functions
that in Python return dicts are modelled as structures holding the fields the
verification needs; pure text renderings (`to_bin`/`to_hex` strings, `trace`
lists) are omitted from the returned records, as no operation reads them back.
-/

namespace RV

/-- Unsigned (plain binary) value of an MSB-first bit list.  This is exactly
the conversion loop `value = value * 2; if bit == 1: value = value + 1` that
`TwosComplement.decode` runs over `bits.bits` (and that `part6` reimplements
with an explicit power-of-two accumulator). -/
def bitsVal (l : List Bool) : Nat :=
  l.foldl (fun acc b => 2 * acc + (if b then 1 else 0)) 0

theorem bitsVal_nil : bitsVal [] = 0 := rfl

theorem bitsVal_foldl (l : List Bool) (a : Nat) :
    l.foldl (fun acc b => 2 * acc + (if b then 1 else 0)) a
      = a * 2 ^ l.length + bitsVal l := by
  induction l generalizing a with
  | nil => simp [bitsVal]
  | cons b t ih =>
    simp only [List.foldl_cons, List.length_cons, bitsVal]
    rw [ih, ih (2 * 0 + (if b then 1 else 0))]
    cases b <;> simp <;> ring

theorem bitsVal_cons (b : Bool) (l : List Bool) :
    bitsVal (b :: l) = (if b then 1 else 0) * 2 ^ l.length + bitsVal l := by
  simpa [bitsVal] using bitsVal_foldl l (2 * 0 + (if b then 1 else 0))

theorem ite_one_zero_eq_toNat (b : Bool) : (if b then (1:Nat) else 0) = b.toNat := by
  cases b <;> rfl

theorem bitsVal_lt (l : List Bool) : bitsVal l < 2 ^ l.length := by
  induction l with
  | nil => simp [bitsVal]
  | cons b t ih =>
    rw [bitsVal_cons]
    have h2 : (2:Nat) ^ (t.length + 1) = 2 ^ t.length * 2 := pow_succ 2 t.length
    simp only [List.length_cons, h2, ite_one_zero_eq_toNat]
    cases b <;> simp [Bool.toNat] <;> omega

theorem bitsVal_append (x y : List Bool) :
    bitsVal (x ++ y) = bitsVal x * 2 ^ y.length + bitsVal y := by
  have : bitsVal (x ++ y)
      = y.foldl (fun acc b => 2 * acc + (if b then 1 else 0)) (bitsVal x) := by
    simp [bitsVal, List.foldl_append]
  rw [this, bitsVal_foldl]

theorem bitsVal_concat (l : List Bool) (b : Bool) :
    bitsVal (l ++ [b]) = 2 * bitsVal l + (if b then 1 else 0) := by
  rw [bitsVal_append]
  simp [bitsVal_cons, bitsVal]
  ring

theorem bitsVal_replicate_false (n : Nat) : bitsVal (List.replicate n false) = 0 := by
  induction n with
  | zero => rfl
  | succ k ih => rw [List.replicate_succ, bitsVal_cons]; simp [ih]

theorem bitsVal_eq_zero_iff (l : List Bool) :
    bitsVal l = 0 ↔ l = List.replicate l.length false := by
  induction l with
  | nil => simp [bitsVal]
  | cons b t ih =>
    rw [bitsVal_cons]
    cases b with
    | false => simpa [List.replicate_succ] using ih
    | true => simp [List.replicate_succ]

/-- Heads of bit lists decide the sign-bit tests `bits[0] == 0 / == 1`. -/
theorem headD_true_le (l : List Bool) (h : l.headD false = true) :
    2 ^ (l.length - 1) ≤ bitsVal l := by
  cases l with
  | nil => simp at h
  | cons b t =>
    simp only [List.headD_cons] at h
    subst h
    rw [bitsVal_cons]
    simp

theorem headD_false_lt (l : List Bool) (h : l.headD false = false) :
    bitsVal l < 2 ^ (l.length - 1) := by
  cases l with
  | nil => simp [bitsVal]
  | cons b t =>
    simp only [List.headD_cons] at h
    subst h
    rw [bitsVal_cons]
    simpa using bitsVal_lt t

/-- Bit pattern written by the encoder loop
`for i in range(width - 1, -1, -1): bits[i] = temp % 2; temp = temp // 2`:
the loop fills the list from the least-significant end (highest index) with
the binary digits of `v`. -/
def natBits : Nat → Nat → List Bool
  | 0, _ => []
  | w + 1, v => natBits w (v / 2) ++ [decide (v % 2 = 1)]

theorem length_natBits (w v : Nat) : (natBits w v).length = w := by
  induction w generalizing v with
  | zero => rfl
  | succ k ih => simp [natBits, ih]

theorem bitsVal_natBits (w v : Nat) : bitsVal (natBits w v) = v % 2 ^ w := by
  induction w generalizing v with
  | zero => simp [natBits, bitsVal, Nat.mod_one]
  | succ k ih =>
    have h1 : (2:Nat) ^ (k + 1) = 2 * 2 ^ k := by rw [pow_succ]; ring
    have h2 : v % (2 * 2 ^ k) = v % 2 + 2 * (v / 2 % 2 ^ k) := Nat.mod_mul
    rw [natBits, bitsVal_concat, ih, h1, h2]
    rcases Nat.mod_two_eq_zero_or_one v with h | h
    · simp [h]
    · simp [h]; ring

namespace TwosComplement

/-- `TwosComplement._invert` (`part2_twos_complement.py`): bit-wise NOT,
`inverted[i] = 1 - bits[i]`. -/
def invert (l : List Bool) : List Bool :=
  l.map (fun b => !b)

/-- Carry chain of `TwosComplement._add_one`: the Python loop walks indices
`width-1 … 0` (LSB to MSB) with initial carry 1, computing
`sum = bit XOR carry; carry = bit AND carry`.  On an MSB-first list that is
this right-to-left recursion; the second component is the carry produced so
far (the carry out of the whole word is discarded by the caller, as in the
source). -/
def addOneAux : List Bool → List Bool × Bool
  | [] => ([], true)
  | b :: t =>
    let p := addOneAux t
    ((b ^^ p.2) :: p.1, b && p.2)

/-- `TwosComplement._add_one`: adds 1 via the simplified ripple carry. -/
def addOne (l : List Bool) : List Bool :=
  (addOneAux l).1

/-- Result record of `TwosComplement.encode`; the Python dict also carries
`'bin'` and `'hex'` renderings of the same `bits`, omitted here. -/
structure EncodeResult where
  bits : List Bool
  overflow : Bool
deriving DecidableEq

/-- `TwosComplement.encode` (`part2_twos_complement.py`).  Width 0 would make
Python evaluate `1 << -1` and raise; the claims only use positive widths. -/
def encode (value : Int) (width : Nat) : EncodeResult :=
  let min_val : Int := -(2 ^ (width - 1))
  let max_val : Int := 2 ^ (width - 1) - 1
  let overflow := decide (value < min_val) || decide (max_val < value)
  let v : Int := if value < min_val then min_val
    else if max_val < value then max_val else value
  if 0 ≤ v then
    { bits := natBits width v.toNat, overflow := overflow }
  else
    { bits := addOne (invert (natBits width (-v).toNat)), overflow := overflow }

/-- `TwosComplement.decode` (`part2_twos_complement.py`), returning the
`'value'` field.  Python indexes `bits[0]` (raising on an empty vector);
`headD false` totalizes that, and the function is only ever applied to
positive-width vectors. -/
def decode (l : List Bool) : Int :=
  if l.headD false = false then
    (bitsVal l : Int)
  else
    -(bitsVal (addOne (invert l)) : Int)

/-- `TwosComplement.sign_extend`: prepend copies of the sign bit
(`bits[0]`, totalized by `headD`). -/
def sign_extend (l : List Bool) (new_width : Nat) : List Bool :=
  List.replicate (new_width - l.length) (l.headD false) ++ l

/-- `TwosComplement.zero_extend`: prepend zero bits. -/
def zero_extend (l : List Bool) (new_width : Nat) : List Bool :=
  List.replicate (new_width - l.length) false ++ l

theorem length_invert (l : List Bool) : (invert l).length = l.length := by
  simp [invert]

theorem bitsVal_invert (l : List Bool) :
    bitsVal (invert l) = 2 ^ l.length - 1 - bitsVal l := by
  induction l with
  | nil => simp [invert, bitsVal]
  | cons b t ih =>
    have hlt := bitsVal_lt t
    have h2 : (2:Nat) ^ (t.length + 1) = 2 ^ t.length * 2 := pow_succ 2 t.length
    simp only [invert, List.map_cons] at *
    rw [bitsVal_cons, bitsVal_cons]
    simp only [ite_one_zero_eq_toNat, List.length_map, List.length_cons, h2]
    cases b <;> simp [Bool.toNat, ih] <;> omega

theorem addOneAux_spec (l : List Bool) :
    (addOneAux l).1.length = l.length ∧
    bitsVal (addOneAux l).1 = (bitsVal l + 1) % 2 ^ l.length ∧
    ((addOneAux l).2 = true ↔ bitsVal l + 1 = 2 ^ l.length) := by
  induction l with
  | nil => simp [addOneAux, bitsVal]
  | cons b t ih =>
    obtain ⟨ihl, ihv, ihc⟩ := ih
    have hlt := bitsVal_lt t
    have h2 : (2:Nat) ^ (t.length + 1) = 2 ^ t.length * 2 := pow_succ 2 t.length
    refine ⟨by simp [addOneAux, ihl], ?_, ?_⟩
    · have hgoal : (addOneAux (b :: t)).1 = (b ^^ (addOneAux t).2) :: (addOneAux t).1 := rfl
      rw [hgoal, bitsVal_cons, ite_one_zero_eq_toNat, ihl, ihv,
        bitsVal_cons, ite_one_zero_eq_toNat]
      simp only [List.length_cons, h2]
      rcases hc : (addOneAux t).2 with _ | _
      · have hne : bitsVal t + 1 ≠ 2 ^ t.length := fun hx => by
          simp [ihc.mpr hx] at hc
        rw [Nat.mod_eq_of_lt (show bitsVal t + 1 < 2 ^ t.length by omega)]
        rw [Nat.mod_eq_of_lt
          (show b.toNat * 2 ^ t.length + bitsVal t + 1 < 2 ^ t.length * 2 by
            cases b <;> simp <;> omega)]
        cases b <;> simp <;> omega
      · have heq : bitsVal t + 1 = 2 ^ t.length := ihc.mp hc
        rw [heq, Nat.mod_self]
        cases b with
        | false =>
          have hr : false.toNat * 2 ^ t.length + bitsVal t + 1 = 2 ^ t.length := by
            simp; omega
          rw [hr, Nat.mod_eq_of_lt (by omega)]
          simp
        | true =>
          have hr : true.toNat * 2 ^ t.length + bitsVal t + 1 = 2 ^ t.length * 2 := by
            simp; omega
          rw [hr, Nat.mod_self]
          simp
    · have hgoal : (addOneAux (b :: t)).2 = (b && (addOneAux t).2) := rfl
      rw [hgoal, bitsVal_cons, ite_one_zero_eq_toNat]
      simp only [List.length_cons, h2]
      constructor
      · intro hx
        have hb : b = true := by cases b <;> simp_all
        have hcar : (addOneAux t).2 = true := by
          cases hcx : (addOneAux t).2 <;> simp_all
        have := ihc.mp hcar
        subst hb
        simp only [Bool.toNat_true]
        omega
      · intro hx
        cases b with
        | false =>
          exfalso
          simp only [Bool.toNat_false] at hx
          omega
        | true =>
          simp only [Bool.toNat_true] at hx
          have hfull : bitsVal t + 1 = 2 ^ t.length := by omega
          simp [ihc.mpr hfull]

theorem length_addOne (l : List Bool) : (addOne l).length = l.length :=
  (addOneAux_spec l).1

theorem bitsVal_addOne (l : List Bool) :
    bitsVal (addOne l) = (bitsVal l + 1) % 2 ^ l.length :=
  (addOneAux_spec l).2.1

theorem decode_of_head_false (l : List Bool) (h : l.headD false = false) :
    decode l = (bitsVal l : Int) := by
  unfold decode
  rw [if_pos h]

theorem decode_of_head_true (l : List Bool) (h : l.headD false = true) :
    decode l = (bitsVal l : Int) - 2 ^ l.length := by
  have hge : 2 ^ (l.length - 1) ≤ bitsVal l := headD_true_le l h
  have hlt := bitsVal_lt l
  have hpos : 0 < l.length := by
    cases l with
    | nil => simp at h
    | cons b t => simp
  have hone : 1 ≤ bitsVal l := by
    have : (1:Nat) ≤ 2 ^ (l.length - 1) := Nat.one_le_two_pow
    omega
  have hinv : bitsVal (invert l) = 2 ^ l.length - 1 - bitsVal l := bitsVal_invert l
  have hlen : (invert l).length = l.length := length_invert l
  have hAdd : bitsVal (addOne (invert l)) = 2 ^ l.length - bitsVal l := by
    rw [bitsVal_addOne, hlen, hinv]
    rw [Nat.mod_eq_of_lt (by omega)]
    omega
  unfold decode
  rw [if_neg (show ¬(l.headD false = false) by rw [h]; simp), hAdd]
  push_cast [Nat.cast_sub (le_of_lt hlt)]
  ring

/-- Head of the encoded pattern of a value below the half-range is 0, and
head of the pattern at or above it is 1 (for nonempty lists). -/
theorem headD_false_iff (l : List Bool) (h : 0 < l.length) :
    l.headD false = false ↔ bitsVal l < 2 ^ (l.length - 1) := by
  constructor
  · exact headD_false_lt l
  · intro hv
    rcases hb : l.headD false with _ | _
    · rfl
    · exact absurd (headD_true_le l hb) (by omega)

/-- General-width round trip for in-range values: decoding the encoded
pattern recovers the value, and no overflow is flagged. -/
theorem encode_decode_in_range (w : Nat) (hw : 0 < w) (v : Int)
    (h1 : -(2 ^ (w - 1)) ≤ v) (h2 : v ≤ 2 ^ (w - 1) - 1) :
    decode (encode v w).bits = v ∧ (encode v w).overflow = false := by
  have hnotlt : ¬ v < -(2 ^ (w - 1) : Int) := not_lt.mpr h1
  have hnotgt : ¬ ((2 ^ (w - 1) - 1 : Int) < v) := not_lt.mpr h2
  have hpows : (2:Nat) ^ (w - 1) * 2 = 2 ^ w := by
    have : w - 1 + 1 = w := by omega
    rw [← pow_succ, this]
  constructor
  · rcases le_or_lt 0 v with hv | hv
    · have hbits : (encode v w).bits = natBits w v.toNat := by
        simp [encode, hnotlt, hnotgt, hv]
      have hval : bitsVal (natBits w v.toNat) = v.toNat := by
        rw [bitsVal_natBits]
        refine Nat.mod_eq_of_lt ?_
        have : (v.toNat : Int) ≤ 2 ^ (w - 1) - 1 := by
          rwa [Int.toNat_of_nonneg hv]
        have hn : v.toNat < 2 ^ (w - 1) := by
          have h2n : ((2:Nat) ^ (w - 1) : Int) = (2:Int) ^ (w - 1) := by push_cast; ring
          omega
        omega
      have hhead : (natBits w v.toNat).headD false = false := by
        rw [headD_false_iff _ (by rw [length_natBits]; omega)]
        rw [length_natBits, hval]
        have h2n : ((2:Nat) ^ (w - 1) : Int) = (2:Int) ^ (w - 1) := by push_cast; ring
        have : (v.toNat : Int) ≤ 2 ^ (w - 1) - 1 := by rwa [Int.toNat_of_nonneg hv]
        omega
      rw [hbits, decode_of_head_false _ hhead, hval, Int.toNat_of_nonneg hv]
    · have hvneg : ¬ (0:Int) ≤ v := not_le.mpr hv
      have hbits : (encode v w).bits = addOne (invert (natBits w (-v).toNat)) := by
        simp [encode, hnotlt, hnotgt, hvneg]
      set m : Nat := (-v).toNat with hm
      have hm1 : 1 ≤ m := by
        have : (0:Int) < -v := by omega
        omega
      have hmle : (m : Int) ≤ 2 ^ (w - 1) := by
        have : -v ≤ 2 ^ (w - 1) := by omega
        rw [hm, Int.toNat_of_nonneg (by omega : (0:Int) ≤ -v)]
        omega
      have h2n : ((2:Nat) ^ (w - 1) : Int) = (2:Int) ^ (w - 1) := by push_cast; ring
      have hmle' : m ≤ 2 ^ (w - 1) := by omega
      have hmlt : m < 2 ^ w := by
        have : (2:Nat) ^ (w - 1) < 2 ^ w := by omega
        omega
      have hvalm : bitsVal (natBits w m) = m := by
        rw [bitsVal_natBits]; exact Nat.mod_eq_of_lt hmlt
      have hinv : bitsVal (invert (natBits w m)) = 2 ^ w - 1 - m := by
        rw [bitsVal_invert, length_natBits, hvalm]
      have hlen2 : (invert (natBits w m)).length = w := by
        rw [length_invert, length_natBits]
      have hval2 : bitsVal (addOne (invert (natBits w m))) = 2 ^ w - m := by
        rw [bitsVal_addOne, hlen2, hinv, Nat.mod_eq_of_lt (by omega)]
        omega
      have hlen3 : (addOne (invert (natBits w m))).length = w := by
        rw [length_addOne, hlen2]
      have hhead : (addOne (invert (natBits w m))).headD false = true := by
        have hiff := headD_false_iff (addOne (invert (natBits w m))) (by omega)
        rcases hh : (addOne (invert (natBits w m))).headD false with _ | _
        · exfalso
          have := (hiff.mp hh)
          rw [hval2, hlen3] at this
          omega
        · rfl
      rw [hbits, decode_of_head_true _ hhead, hval2, hlen3]
      have : ((2:Nat) ^ w : Int) = (2:Int) ^ w := by push_cast; ring
      have hmc : ((2 ^ w - m : Nat) : Int) = (2:Int) ^ w - m := by
        push_cast [Nat.cast_sub (le_of_lt hmlt)]
        ring
      rw [hmc]
      have : (m : Int) = -v := by
        rw [hm, Int.toNat_of_nonneg (by omega : (0:Int) ≤ -v)]
      omega
  · rcases le_or_lt 0 v with hv | hv
    · simp [encode, hnotlt, hnotgt, hv]
    · simp [encode, hnotlt, hnotgt, not_le.mpr hv]

end TwosComplement

/-- C1: for every integer v in the signed 32-bit range, decoding the
BitVector produced by `TwosComplement.encode(v, 32)` yields v again, and the
overflow flag of that encode is false. -/
theorem c1_encode_decode_roundtrip (v : Int)
    (h1 : -(2 ^ 31) ≤ v) (h2 : v ≤ 2 ^ 31 - 1) :
    TwosComplement.decode (TwosComplement.encode v 32).bits = v ∧
    (TwosComplement.encode v 32).overflow = false :=
  TwosComplement.encode_decode_in_range 32 (by norm_num) v h1 h2

/-- Witness for C1 at v = -13. -/
theorem c1_encode_decode_roundtrip_witness :
    TwosComplement.decode (TwosComplement.encode (-13) 32).bits = -13 ∧
    (TwosComplement.encode (-13) 32).overflow = false :=
  c1_encode_decode_roundtrip (-13) (by norm_num) (by norm_num)

/-- C7: encoding an out-of-range value does not raise; the pattern is clamped
to the nearest bound (its decoded value is that bound) and overflow is
reported true, while every in-range value encodes with overflow false. -/
theorem c7_encode_clamps (v : Int) (w : Nat) (hw : 0 < w) :
    ((2 ^ (w - 1) - 1 : Int) < v →
      TwosComplement.decode (TwosComplement.encode v w).bits = 2 ^ (w - 1) - 1 ∧
      (TwosComplement.encode v w).overflow = true) ∧
    (v < -(2 ^ (w - 1)) →
      TwosComplement.decode (TwosComplement.encode v w).bits = -(2 ^ (w - 1)) ∧
      (TwosComplement.encode v w).overflow = true) ∧
    (-(2 ^ (w - 1)) ≤ v → v ≤ 2 ^ (w - 1) - 1 →
      (TwosComplement.encode v w).overflow = false) := by
  have hp : (0:Int) < 2 ^ (w - 1) := pow_pos (by norm_num) _
  refine ⟨?_, ?_, fun h1 h2 => (TwosComplement.encode_decode_in_range w hw v h1 h2).2⟩
  · intro h
    have hnlt : ¬ v < -(2 ^ (w - 1) : Int) := by omega
    have c1 : ¬ ((2 ^ (w - 1) - 1 : Int) < -(2 ^ (w - 1))) := by omega
    have c2 : ¬ ((2 ^ (w - 1) - 1 : Int) < 2 ^ (w - 1) - 1) := by omega
    have c3 : (0:Int) ≤ 2 ^ (w - 1) - 1 := by omega
    have hbits : (TwosComplement.encode v w).bits
        = (TwosComplement.encode (2 ^ (w - 1) - 1) w).bits := by
      simp [TwosComplement.encode, hnlt, h, c1, c2, c3]
    refine ⟨?_, by simp [TwosComplement.encode, hnlt, h]; split <;> rfl⟩
    rw [hbits]
    exact (TwosComplement.encode_decode_in_range w hw _ (by omega) (by omega)).1
  · intro h
    have hngt : ¬ ((2 ^ (w - 1) - 1 : Int) < v) := by omega
    have c1 : ¬ (-(2 ^ (w - 1) : Int) < -(2 ^ (w - 1))) := by omega
    have c2 : ¬ ((2 ^ (w - 1) - 1 : Int) < -(2 ^ (w - 1))) := by omega
    have c3 : ¬ ((0:Int) ≤ -(2 ^ (w - 1))) := by omega
    have hbits : (TwosComplement.encode v w).bits
        = (TwosComplement.encode (-(2 ^ (w - 1))) w).bits := by
      simp [TwosComplement.encode, h, hngt, c1, c2, c3]
    refine ⟨?_, by simp [TwosComplement.encode, h, hngt]; split <;> rfl⟩
    rw [hbits]
    exact (TwosComplement.encode_decode_in_range w hw _ (by omega) (by omega)).1

/-- Witness for C7 at v = 2^31 (too large) and width 32. -/
theorem c7_encode_clamps_witness :
    TwosComplement.decode (TwosComplement.encode (2 ^ 31) 32).bits = 2 ^ 31 - 1 ∧
    (TwosComplement.encode (2 ^ 31) 32).overflow = true :=
  (c7_encode_clamps (2 ^ 31) 32 (by norm_num)).1 (by norm_num)

namespace BitVector

/-- Nibble lookup table `hex_map` of `BitVector.from_hex`
(`part1_foundation.py`), modelled as the dict it is: an association list
queried by character; characters outside the table are reported as `none`
(Python: `char in hex_map` is false). -/
def hex_table : List (Char × List Bool) :=
  [('0', [false, false, false, false]), ('1', [false, false, false, true]),
   ('2', [false, false, true, false]), ('3', [false, false, true, true]),
   ('4', [false, true, false, false]), ('5', [false, true, false, true]),
   ('6', [false, true, true, false]), ('7', [false, true, true, true]),
   ('8', [true, false, false, false]), ('9', [true, false, false, true]),
   ('A', [true, false, true, false]), ('B', [true, false, true, true]),
   ('C', [true, true, false, false]), ('D', [true, true, false, true]),
   ('E', [true, true, true, false]), ('F', [true, true, true, true]),
   ('a', [true, false, true, false]), ('b', [true, false, true, true]),
   ('c', [true, true, false, false]), ('d', [true, true, false, true]),
   ('e', [true, true, true, false]), ('f', [true, true, true, true])]

/-- Dict lookup `hex_map[char]` with the `char in hex_map` test folded in. -/
def hex_map (c : Char) : Option (List Bool) :=
  (hex_table.find? (fun p => p.1 == c)).map (fun p => p.2)

/-- Prefix handling of `from_hex`:
`if hex_str.lower().startswith('0x'): hex_str = hex_str[2:]`. -/
def strip0x (s : List Char) : List Char :=
  match s with
  | c0 :: c1 :: rest =>
    if c0 = '0' ∧ (c1 = 'x' ∨ c1 = 'X') then rest else c0 :: c1 :: rest
  | other => other

/-- Zero padding of `from_hex`:
`while len(hex_str) < 8: hex_str = '0' + hex_str`. -/
def pad8 (s : List Char) : List Char :=
  List.replicate (8 - s.length) '0' ++ s

/-- Character-translation loop of `from_hex`: a valid character appends its
nibble to `all_bits`; the loop has no else branch, so any other character is
silently skipped. -/
def hexBits : List Char → List Bool
  | [] => []
  | c :: rest =>
    match hex_map c with
    | some nb => nb ++ hexBits rest
    | none => hexBits rest

/-- `BitVector.from_hex` (`part1_foundation.py`): strip the optional prefix,
left-pad with '0' characters to 8, translate, and keep only the last 32 bits
when the translation produced more. -/
def from_hex (s : List Char) : List Bool :=
  let all_bits := hexBits (pad8 (strip0x s))
  if 32 < all_bits.length then all_bits.drop (all_bits.length - 32) else all_bits

theorem hex_map_length (c : Char) (nb : List Bool) (h : hex_map c = some nb) :
    nb.length = 4 := by
  unfold hex_map at h
  rcases hf : hex_table.find? (fun p => p.1 == c) with _ | p
  · rw [hf] at h
    exact Option.noConfusion h
  · rw [hf] at h
    simp at h
    have hmem := List.mem_of_find?_eq_some hf
    have hall : ∀ q ∈ hex_table, q.2.length = 4 := by decide
    rw [← h]
    exact hall p hmem

theorem length_hexBits (s : List Char) :
    (hexBits s).length = 4 * s.countP (fun c => (hex_map c).isSome) := by
  induction s with
  | nil => simp [hexBits]
  | cons c rest ih =>
    rw [hexBits]
    rcases h : hex_map c with _ | nb
    · simp [List.countP_cons, h, ih]
    · have h4 := hex_map_length c nb h
      simp [List.countP_cons, h, ih, h4]
      ring

theorem hexBits_append (x y : List Char) :
    hexBits (x ++ y) = hexBits x ++ hexBits y := by
  induction x with
  | nil => simp [hexBits]
  | cons c rest ih =>
    rw [List.cons_append, hexBits, hexBits]
    rcases h : hex_map c with _ | nb <;> simp [ih]

theorem hexBits_replicate_zero (k : Nat) :
    hexBits (List.replicate k '0') = List.replicate (4 * k) false := by
  induction k with
  | zero => simp [hexBits]
  | succ n ih =>
    have h0 : hexBits ('0' :: List.replicate n '0')
        = [false, false, false, false] ++ hexBits (List.replicate n '0') := rfl
    rw [List.replicate_succ, h0, ih]
    have h4 : 4 * (n + 1) = 4 + 4 * n := by ring
    rw [h4, List.replicate_add]
    rfl

theorem hexBits_filter (s : List Char) :
    hexBits s = hexBits (s.filter (fun c => (hex_map c).isSome)) := by
  induction s with
  | nil => rfl
  | cons c rest ih =>
    rw [hexBits, List.filter_cons]
    rcases h : hex_map c with _ | nb
    · simp [h, ih]
    · simp only [h, Option.isSome_some, if_true]
      rw [hexBits, h, ih]

theorem bitsVal_zero_prefix (k : Nat) (x : List Bool) :
    bitsVal (List.replicate k false ++ x) = bitsVal x := by
  rw [bitsVal_append, bitsVal_replicate_false]
  ring

theorem bitsVal_drop_tail (l : List Bool) (h : 32 ≤ l.length) :
    bitsVal (l.drop (l.length - 32)) = bitsVal l % 2 ^ 32 := by
  have hsplit : l = l.take (l.length - 32) ++ l.drop (l.length - 32) :=
    (List.take_append_drop _ l).symm
  have hlen : (l.drop (l.length - 32)).length = 32 := by
    rw [List.length_drop]
    omega
  have hv : bitsVal l
      = bitsVal (l.take (l.length - 32)) * 2 ^ 32 + bitsVal (l.drop (l.length - 32)) := by
    conv_lhs => rw [hsplit]
    rw [bitsVal_append, hlen]
  have hbd : bitsVal (l.drop (l.length - 32)) < 2 ^ 32 := by
    have := bitsVal_lt (l.drop (l.length - 32))
    rwa [hlen] at this
  rw [hv, Nat.add_comm, Nat.add_mul_mod_self_right, Nat.mod_eq_of_lt hbd]

end BitVector

/-- C10: on any input whose prefix-stripped text consists only of valid hex
digits, `from_hex` returns exactly 32 bits; shorter inputs are left-padded
with zero nibbles (the value is unchanged) and longer inputs keep only the
least-significant 32 bits (the value is reduced mod 2^32). -/
theorem c10_from_hex_width (s : List Char)
    (h : ∀ c ∈ BitVector.strip0x s, (BitVector.hex_map c).isSome) :
    (BitVector.from_hex s).length = 32 ∧
    bitsVal (BitVector.from_hex s)
      = bitsVal (BitVector.hexBits (BitVector.strip0x s)) % 2 ^ 32 := by
  set t := BitVector.strip0x s with ht
  have hcount : t.countP (fun c => (BitVector.hex_map c).isSome) = t.length :=
    List.countP_eq_length.mpr (by intro c hc; simpa using h c hc)
  have hpadsplit : BitVector.hexBits (BitVector.pad8 t)
      = List.replicate (4 * (8 - t.length)) false ++ BitVector.hexBits t := by
    rw [BitVector.pad8, BitVector.hexBits_append, BitVector.hexBits_replicate_zero]
  have hlenall : (BitVector.hexBits (BitVector.pad8 t)).length
      = 4 * (8 - t.length) + 4 * t.length := by
    rw [hpadsplit, List.length_append, List.length_replicate,
      BitVector.length_hexBits, hcount]
  have hlent : (BitVector.hexBits t).length = 4 * t.length := by
    rw [BitVector.length_hexBits, hcount]
  rcases le_or_lt t.length 8 with hle | hgt
  · have hlen32 : (BitVector.hexBits (BitVector.pad8 t)).length = 32 := by omega
    have hnotrunc : ¬ 32 < (BitVector.hexBits (BitVector.pad8 t)).length := by omega
    constructor
    · simp only [BitVector.from_hex]
      rw [← ht, if_neg hnotrunc]
      exact hlen32
    · simp only [BitVector.from_hex]
      rw [← ht, if_neg hnotrunc]
      rw [hpadsplit, BitVector.bitsVal_zero_prefix, Nat.mod_eq_of_lt]
      have hv := bitsVal_lt (BitVector.hexBits t)
      rw [hlent] at hv
      calc bitsVal (BitVector.hexBits t) < 2 ^ (4 * t.length) := hv
        _ ≤ 2 ^ 32 := Nat.pow_le_pow_right (by norm_num) (by omega)
  · have hpad : BitVector.pad8 t = t := by
      rw [BitVector.pad8]
      have : 8 - t.length = 0 := by omega
      rw [this]
      rfl
    have hbig : 32 < (BitVector.hexBits (BitVector.pad8 t)).length := by
      rw [hpad, hlent]; omega
    constructor
    · simp only [BitVector.from_hex]
      rw [← ht, if_pos hbig, List.length_drop]
      omega
    · simp only [BitVector.from_hex]
      rw [← ht, if_pos hbig]
      rw [hpad] at hbig ⊢
      exact BitVector.bitsVal_drop_tail _ (by omega)

/-- Witness for C10 on the 4-digit input "0xBEEF". -/
theorem c10_from_hex_width_witness :
    (BitVector.from_hex ['0', 'x', 'B', 'E', 'E', 'F']).length = 32 ∧
    bitsVal (BitVector.from_hex ['0', 'x', 'B', 'E', 'E', 'F'])
      = bitsVal (BitVector.hexBits (BitVector.strip0x ['0', 'x', 'B', 'E', 'E', 'F'])) % 2 ^ 32 :=
  c10_from_hex_width ['0', 'x', 'B', 'E', 'E', 'F'] (by decide)

/-- Counterexample to C9: on the input "0xZ1234567", which contains the
non-hex character 'Z', `from_hex` does not fail with a ParseError — it
returns a 28-bit vector, the 'Z' having been silently dropped (the seven
remaining digits contribute 4 bits each). -/
theorem c9_counterexample :
    (BitVector.from_hex ['0', 'x', 'Z', '1', '2', '3', '4', '5', '6', '7']).length = 28 := by
  decide

/-- C9 amended: `from_hex` never fails on a non-hex character; every
character outside the nibble table is silently dropped (the translation of
the padded, stripped text equals the translation of its valid characters
only), so the result has 4 bits per valid character of the padded input,
capped at 32. -/
theorem c9_from_hex_drops_invalid (s : List Char) :
    BitVector.hexBits (BitVector.pad8 (BitVector.strip0x s))
      = BitVector.hexBits
          ((BitVector.pad8 (BitVector.strip0x s)).filter
            (fun c => (BitVector.hex_map c).isSome)) ∧
    (BitVector.from_hex s).length
      = min (4 * ((BitVector.pad8 (BitVector.strip0x s)).countP
          (fun c => (BitVector.hex_map c).isSome))) 32 := by
  constructor
  · exact BitVector.hexBits_filter _
  · simp only [BitVector.from_hex]
    have hlen := BitVector.length_hexBits (BitVector.pad8 (BitVector.strip0x s))
    rcases le_or_lt (BitVector.hexBits (BitVector.pad8 (BitVector.strip0x s))).length 32
      with hle | hgt
    · rw [if_neg (not_lt.mpr hle)]
      omega
    · rw [if_pos hgt, List.length_drop]
      omega

namespace ALU

/-- `ALU.full_adder` (`part3_alu.py`): sum = a XOR b XOR cin,
carry out = (a AND b) OR (cin AND (a XOR b)). -/
def full_adder (a b cin : Bool) : Bool × Bool :=
  ((a ^^ b) ^^ cin, (a && b) || (cin && (a ^^ b)))

/-- Ripple-carry loop shared verbatim by `ALU.add` and `ALU.sub`: Python
iterates `i` from `width-1` (LSB) down to `0` (MSB), threading the carry.
On an MSB-first list that is this recursion, which processes the tail (the
lower-significance bits) first and feeds the tail's carry into the head
position; the second component is the carry out of the processed bits. -/
def rippleAdd : List Bool → List Bool → Bool → List Bool × Bool
  | a :: as, b :: bs, cin =>
    let p := rippleAdd as bs cin
    let f := full_adder a b p.2
    (f.1 :: p.1, f.2)
  | _, _, cin => ([], cin)

/-- Result record of `ALU.add`/`ALU.sub`: result bits plus the N/Z/C/V flag
bits of the Python dict. -/
structure AluResult where
  result : List Bool
  N : Bool
  Z : Bool
  C : Bool
  V : Bool
deriving DecidableEq

/-- Failures of the ALU entry points: the explicit
`ValueError("Operands must have same width")` of `add` (the spec's
`WidthMismatch`), and the `IndexError` Python raises on an out-of-range
`bits[i]` access. -/
inductive AluError
  | widthMismatch
  | indexOutOfRange
deriving DecidableEq

/-- Loop-plus-flags body shared by `ALU.add` and `ALU.sub` after their
respective preparation: run the ripple carry, then `N = result[0]` (an
IndexError on an empty result, hence the error arm), `Z` = all result bits
zero, `C` = final carry out, `V` = carry into the MSB XOR carry out of the
MSB (the carry captured when `i == 0` before the last full adder). -/
def flagsOf (a b : List Bool) (cin : Bool) : Except AluError AluResult :=
  match a, b with
  | x :: as, y :: bs =>
    let p := rippleAdd as bs cin
    let f := full_adder x y p.2
    .ok { result := f.1 :: p.1
          N := f.1
          Z := (f.1 :: p.1).all (fun bb => bb == false)
          C := f.2
          V := p.2 ^^ f.2 }
  | _, _ => .error .indexOutOfRange

/-- `ALU.add` (`part3_alu.py`): explicit width check (raising the spec's
`WidthMismatch`), then ripple carry with carry-in 0. -/
def add (a_bits b_bits : List Bool) : Except AluError AluResult :=
  if b_bits.length ≠ a_bits.length then .error .widthMismatch
  else flagsOf a_bits b_bits false

/-- `ALU.sub` (`part3_alu.py`): computes A + (~B) with carry-in 1.  There is
no width check in the source: the loop reads `a_bits[i]` and `inverted_b[i]`
for `i < len(A)` only, so a shorter B raises an IndexError on the first
iteration (`i = len(A)-1` is already out of range for B), while a longer B
silently contributes just its first `len(A)` entries (its high bits). -/
def sub (a_bits b_bits : List Bool) : Except AluError AluResult :=
  let inverted_b := TwosComplement.invert b_bits
  if b_bits.length < a_bits.length then .error .indexOutOfRange
  else flagsOf a_bits (inverted_b.take a_bits.length) true

theorem full_adder_toNat (x y c : Bool) :
    (full_adder x y c).1.toNat + 2 * (full_adder x y c).2.toNat
      = x.toNat + y.toNat + c.toNat := by
  cases x <;> cases y <;> cases c <;> rfl

theorem rippleAdd_length (a b : List Bool) (cin : Bool) (h : a.length = b.length) :
    (rippleAdd a b cin).1.length = a.length := by
  induction a generalizing b with
  | nil =>
    cases b with
    | nil => rfl
    | cons y bs => simp at h
  | cons x as ih =>
    cases b with
    | nil => simp at h
    | cons y bs =>
      have h' : as.length = bs.length := by simpa using h
      simp [rippleAdd, ih bs h']

/-- Exact-sum characterization of the ripple-carry loop: result plus the
weighted carry-out equals the plain sum of inputs and carry-in. -/
theorem rippleAdd_exact (a b : List Bool) (cin : Bool) (h : a.length = b.length) :
    bitsVal (rippleAdd a b cin).1 + (rippleAdd a b cin).2.toNat * 2 ^ a.length
      = bitsVal a + bitsVal b + cin.toNat := by
  induction a generalizing b with
  | nil =>
    cases b with
    | nil => simp [rippleAdd, bitsVal]
    | cons y bs => simp at h
  | cons x as ih =>
    cases b with
    | nil => simp at h
    | cons y bs =>
      have h' : as.length = bs.length := by simpa using h
      have ihs := ih bs h'
      have hlen := rippleAdd_length as bs cin h'
      have hstep : rippleAdd (x :: as) (y :: bs) cin
          = ((full_adder x y (rippleAdd as bs cin).2).1 :: (rippleAdd as bs cin).1,
             (full_adder x y (rippleAdd as bs cin).2).2) := rfl
      rw [hstep]
      dsimp only
      rw [bitsVal_cons, bitsVal_cons, bitsVal_cons, ite_one_zero_eq_toNat,
        ite_one_zero_eq_toNat, ite_one_zero_eq_toNat, hlen]
      have h2 : (2:Nat) ^ ((x :: as).length) = 2 ^ as.length * 2 := pow_succ 2 _
      rw [h2, ← h']
      rcases hc : (rippleAdd as bs cin).2 with _ | _ <;>
        rw [hc] at ihs <;> cases x <;> cases y <;>
        simp [full_adder, Bool.toNat] at ihs ⊢ <;> omega

theorem rippleAdd_carry (a b : List Bool) (cin : Bool) (h : a.length = b.length) :
    ((rippleAdd a b cin).2 = true ↔ 2 ^ a.length ≤ bitsVal a + bitsVal b + cin.toNat) := by
  have hex := rippleAdd_exact a b cin h
  have hlt : bitsVal (rippleAdd a b cin).1 < 2 ^ a.length := by
    have := bitsVal_lt (rippleAdd a b cin).1
    rwa [rippleAdd_length a b cin h] at this
  rcases hc : (rippleAdd a b cin).2 with _ | _ <;> rw [hc] at hex <;> simp at hex ⊢ <;> omega

theorem bitsVal_rippleAdd (a b : List Bool) (cin : Bool) (h : a.length = b.length) :
    bitsVal (rippleAdd a b cin).1
      = (bitsVal a + bitsVal b + cin.toNat) % 2 ^ a.length := by
  have hex := rippleAdd_exact a b cin h
  have hlt : bitsVal (rippleAdd a b cin).1 < 2 ^ a.length := by
    have := bitsVal_lt (rippleAdd a b cin).1
    rwa [rippleAdd_length a b cin h] at this
  have hab : bitsVal a < 2 ^ a.length := bitsVal_lt a
  have hbb : bitsVal b < 2 ^ b.length := bitsVal_lt b
  rw [← h] at hbb
  have hcle : cin.toNat ≤ 1 := Bool.toNat_le cin
  rcases hc : (rippleAdd a b cin).2 with _ | _ <;> rw [hc] at hex <;> simp at hex
  · rw [hex, Nat.mod_eq_of_lt (by omega)]
  · have hge : 2 ^ a.length ≤ bitsVal a + bitsVal b + cin.toNat := by omega
    have hlt2 : bitsVal a + bitsVal b + cin.toNat - 2 ^ a.length < 2 ^ a.length := by
      omega
    rw [Nat.mod_eq_sub_mod hge, Nat.mod_eq_of_lt hlt2]
    omega

end ALU

/-- Witness for C9's amended statement on the same invalid input. -/
theorem c9_from_hex_drops_invalid_witness :
    BitVector.hexBits
        (BitVector.pad8 (BitVector.strip0x ['0', 'x', 'Z', 'Z', '1', '2', '3']))
      = BitVector.hexBits
          ((BitVector.pad8 (BitVector.strip0x ['0', 'x', 'Z', 'Z', '1', '2', '3'])).filter
            (fun c => (BitVector.hex_map c).isSome)) ∧
    (BitVector.from_hex ['0', 'x', 'Z', 'Z', '1', '2', '3']).length
      = min (4 * ((BitVector.pad8 (BitVector.strip0x ['0', 'x', 'Z', 'Z', '1', '2', '3'])).countP
          (fun c => (BitVector.hex_map c).isSome))) 32 :=
  c9_from_hex_drops_invalid ['0', 'x', 'Z', 'Z', '1', '2', '3']

namespace Shifter

/-- `Shifter.shift_left_logical` (`part4_shifter_mdu.py`): result bit i =
input bit (i + shamt) when that index is inside the width, else 0.  On an
MSB-first list: drop the first `shamt` bits, append zeros, keep the
width. -/
def shift_left_logical (bits : List Bool) (shamt : Nat) : List Bool :=
  (bits.drop shamt ++ List.replicate shamt false).take bits.length

/-- `Shifter.shift_right_logical`: result bit i = input bit (i − shamt) when
that is ≥ 0, else 0: prepend `shamt` zeros, keep the first `width` bits. -/
def shift_right_logical (bits : List Bool) (shamt : Nat) : List Bool :=
  (List.replicate shamt false ++ bits).take bits.length

/-- `Shifter.shift_right_arithmetic`: like the logical right shift but the
vacated positions receive the original sign bit `bits[0]` (`headD`
totalizes the empty case Python would raise on). -/
def shift_right_arithmetic (bits : List Bool) (shamt : Nat) : List Bool :=
  (List.replicate shamt (bits.headD false) ++ bits).take bits.length

theorem srl_one (l : List Bool) (h : l ≠ []) :
    shift_right_logical l 1 = false :: l.dropLast := by
  cases l with
  | nil => simp at h
  | cons x t =>
    rw [shift_right_logical]
    have h1 : List.replicate 1 false ++ (x :: t) = false :: x :: t := rfl
    rw [h1, List.length_cons, List.take_succ_cons, List.dropLast_eq_take]
    simp

end Shifter

theorem bitsVal_dropLast_getLast (l : List Bool) (h : l ≠ []) :
    bitsVal l = 2 * bitsVal l.dropLast + (l.getLastD false).toNat := by
  conv_lhs => rw [← List.dropLast_concat_getLast h]
  rw [bitsVal_concat, ite_one_zero_eq_toNat, List.getLastD_eq_getLast?]
  rw [List.getLast?_eq_getLast l h]
  rfl

theorem length_dropLast_cons (l : List Bool) (h : l ≠ []) :
    l.dropLast.length = l.length - 1 := by
  simp [List.length_dropLast]

namespace MDU

/-- `MDU._is_neg` (`part4_shifter_mdu.py`): MSB = 1. -/
def is_neg (l : List Bool) : Bool := l.headD false

/-- Result record of `MDU.mul`: low half `rd`, high half `hi`, and the
overflow indicator (Python's 0/1 as a Bool).  The `trace` list is omitted. -/
structure MulResult where
  rd : List Bool
  hi : List Bool
  overflow : Bool
deriving DecidableEq

/-- Body of one iteration of the shift-add loop in `MDU.mul`: if the LSB of
Q is 1, add M into the accumulator A through the ALU; then shift the
combined A:Q pair right one bit, Q's vacated MSB receiving A's vacated LSB.
The ALU call cannot fail there (A and M are both 32 bits wide); the error
arm keeps A and is unreachable. -/
def mulStep (M : List Bool) (p : List Bool × List Bool) : List Bool × List Bool :=
  let A := p.1
  let Q := p.2
  let A1 := if Q.getLastD false = true then
      match ALU.add A M with
      | .ok r => r.result
      | .error _ => A
    else A
  let A_lsb := A1.getLastD false
  let A2 := Shifter.shift_right_logical A1 1
  let Q2 := Shifter.shift_right_logical Q 1
  (A2, (Q2.set 0 A_lsb))

/-- The `for i in range(1, width + 1)` loop of `MDU.mul`: `k` applications
of `mulStep`. -/
def mulLoop (M : List Bool) : Nat → (List Bool × List Bool) → List Bool × List Bool
  | 0, p => p
  | n + 1, p => mulLoop M n (mulStep M p)

/-- `MDU.mul` (`part4_shifter_mdu.py`): magnitude shift-add core, then the
negative-result fix-up through a 64-bit decode/encode round trip, then the
overflow flagging (which reads the loop's low half `Q`, not the fixed-up
`rd`, in its edge-case test — as the source does).  The unused
`int32_max_bits` of the source and the `trace` list are omitted. -/
def mul (rs1_bits rs2_bits : List Bool) : MulResult :=
  let sign_r1 := is_neg rs1_bits
  let sign_r2 := is_neg rs2_bits
  let final_sign := sign_r1 ^^ sign_r2
  let M_val := TwosComplement.decode rs1_bits
  let Q_val := TwosComplement.decode rs2_bits
  let M := (TwosComplement.encode |M_val| 32).bits
  let Q0 := (TwosComplement.encode |Q_val| 32).bits
  let p := mulLoop M 32 (List.replicate 32 false, Q0)
  let A := p.1
  let Q := p.2
  let rdhi : List Bool × List Bool :=
    if final_sign then
      let full_product_bits := A ++ Q
      let full_magnitude := TwosComplement.decode full_product_bits
      let neg_result := (TwosComplement.encode (-full_magnitude) 64).bits
      (neg_result.drop 32, neg_result.take 32)
    else
      (Q, A)
  let int32_min_bits := (TwosComplement.encode (-(2 ^ 31)) 32).bits
  let overflow :=
    if final_sign = false then
      rdhi.2.any (fun b => b == true)
    else
      rdhi.2.any (fun b => b == false) ||
        (decide (rdhi.2 = int32_min_bits) && decide (Q = List.replicate 32 false))
  { rd := rdhi.1, hi := rdhi.2, overflow := overflow }

end MDU

theorem add_match_result (a b : List Bool) (h : a.length = b.length) (hpos : 0 < a.length) :
    (match ALU.add a b with
     | .ok r => r.result
     | .error _ => a) = (ALU.rippleAdd a b false).1 := by
  cases a with
  | nil => simp at hpos
  | cons x as =>
    cases b with
    | nil => simp at h
    | cons y bs =>
      have hw : ¬ ((y :: bs).length ≠ (x :: as).length) := by simp [h]
      rw [ALU.add, if_neg hw, ALU.flagsOf]
      rfl

theorem decode_range (l : List Bool) (hl : 0 < l.length) :
    -(2 ^ (l.length - 1) : Int) ≤ TwosComplement.decode l ∧
    TwosComplement.decode l ≤ 2 ^ (l.length - 1) - 1 := by
  have hpow : ((2:Nat) ^ (l.length - 1) : Int) = (2:Int) ^ (l.length - 1) := by
    push_cast; ring
  have hpow2 : ((2:Nat) ^ l.length : Int) = (2:Int) ^ l.length := by push_cast; ring
  have hsplit : (2:Nat) ^ (l.length - 1) * 2 = 2 ^ l.length := by
    rw [← pow_succ]
    congr 1
    omega
  rcases hh : l.headD false with _ | _
  · rw [TwosComplement.decode_of_head_false l hh]
    have := headD_false_lt l hh
    constructor <;> omega
  · rw [TwosComplement.decode_of_head_true l hh]
    have h1 := headD_true_le l hh
    have h2 := bitsVal_lt l
    constructor <;> omega

theorem headD_decide_decode_neg (l : List Bool) (hl : 0 < l.length) :
    l.headD false = decide (TwosComplement.decode l < 0) := by
  have hsplit : (2:Nat) ^ (l.length - 1) * 2 = 2 ^ l.length := by
    rw [← pow_succ]
    congr 1
    omega
  rcases hh : l.headD false with _ | _
  · rw [TwosComplement.decode_of_head_false l hh]
    simp
  · rw [TwosComplement.decode_of_head_true l hh]
    have h1 := headD_true_le l hh
    have h2 := bitsVal_lt l
    have : (bitsVal l : Int) - 2 ^ l.length < 0 := by
      have : (bitsVal l : Int) < (2:Int) ^ l.length := by
        have h3 : ((2:Nat) ^ l.length : Int) = (2:Int) ^ l.length := by push_cast; ring
        omega
      omega
    simp [this]

/-- Bits and value of an in-range encode, in one statement: the pattern's
unsigned value is the value mod 2^w (as an Int). -/
theorem encode_bits_val (v : Int) (w : Nat) (hw : 0 < w)
    (h1 : -(2 ^ (w - 1)) ≤ v) (h2 : v ≤ 2 ^ (w - 1) - 1) :
    (bitsVal (TwosComplement.encode v w).bits : Int) = v % 2 ^ w ∧
    (TwosComplement.encode v w).bits.length = w := by
  have hnotlt : ¬ v < -(2 ^ (w - 1) : Int) := not_lt.mpr h1
  have hnotgt : ¬ ((2 ^ (w - 1) - 1 : Int) < v) := not_lt.mpr h2
  have hpows : (2:Nat) ^ (w - 1) * 2 = 2 ^ w := by
    rw [← pow_succ]
    congr 1
    omega
  have hpowc : ((2:Nat) ^ (w - 1) : Int) = (2:Int) ^ (w - 1) := by push_cast; ring
  have hpowc2 : ((2:Nat) ^ w : Int) = (2:Int) ^ w := by push_cast; ring
  have hpos : (0:Int) < (2:Int) ^ w := by positivity
  rcases le_or_lt 0 v with hv | hv
  · have hbits : (TwosComplement.encode v w).bits = natBits w v.toNat := by
      simp [TwosComplement.encode, hnotlt, hnotgt, hv]
    have hvlt : v.toNat < 2 ^ w := by omega
    constructor
    · rw [hbits, bitsVal_natBits, Nat.mod_eq_of_lt hvlt]
      rw [Int.emod_eq_of_lt hv (by omega)]
      omega
    · rw [hbits, length_natBits]
  · have hvneg : ¬ (0:Int) ≤ v := not_le.mpr hv
    have hbits : (TwosComplement.encode v w).bits
        = TwosComplement.addOne (TwosComplement.invert (natBits w (-v).toNat)) := by
      simp [TwosComplement.encode, hnotlt, hnotgt, hvneg]
    set m : Nat := (-v).toNat with hm
    have hm1 : 1 ≤ m := by omega
    have hmle : m ≤ 2 ^ (w - 1) := by omega
    have hmlt : m < 2 ^ w := by omega
    have hvalm : bitsVal (natBits w m) = m := by
      rw [bitsVal_natBits]
      exact Nat.mod_eq_of_lt hmlt
    have hinv : bitsVal (TwosComplement.invert (natBits w m)) = 2 ^ w - 1 - m := by
      rw [TwosComplement.bitsVal_invert, length_natBits, hvalm]
    have hlen2 : (TwosComplement.invert (natBits w m)).length = w := by
      rw [TwosComplement.length_invert, length_natBits]
    have hval2 : bitsVal (TwosComplement.addOne (TwosComplement.invert (natBits w m)))
        = 2 ^ w - m := by
      rw [TwosComplement.bitsVal_addOne, hlen2, hinv, Nat.mod_eq_of_lt (by omega)]
      omega
    have hlen3 : (TwosComplement.addOne (TwosComplement.invert (natBits w m))).length = w := by
      rw [TwosComplement.length_addOne, hlen2]
    constructor
    · have hple : (2:Int) ^ (w - 1) ≤ 2 ^ w := pow_le_pow_right (by norm_num) (by omega)
      have hemod : v % (2:Int) ^ w = v + 2 ^ w := by
        have h1 : (v + 2 ^ w) % (2:Int) ^ w = v % 2 ^ w := by
          rw [show v + (2:Int) ^ w = v + 2 ^ w * 1 by ring, Int.add_mul_emod_self_left]
        rw [← h1]
        exact Int.emod_eq_of_lt (by omega) (by omega)
      rw [hbits, hval2, hemod]
      have hcast : ((2 ^ w - m : Nat) : Int) = ((2 ^ w : Nat) : Int) - (m : Int) := by
        push_cast [Nat.cast_sub (le_of_lt hmlt)]
        ring
      rw [hcast]
      have hm2 : (m : Int) = -v := by omega
      omega
    · rw [hbits, hlen3]

theorem bitsVal_take_drop (l : List Bool) (n : Nat) (h : n ≤ l.length) :
    bitsVal (l.take n) = bitsVal l / 2 ^ (l.length - n) ∧
    bitsVal (l.drop n) = bitsVal l % 2 ^ (l.length - n) := by
  have hdlen : (l.drop n).length = l.length - n := by simp
  have hsplit : bitsVal l = 2 ^ (l.length - n) * bitsVal (l.take n) + bitsVal (l.drop n) := by
    conv_lhs => rw [← List.take_append_drop n l]
    rw [bitsVal_append, hdlen]
    ring
  have hpos : 0 < 2 ^ (l.length - n) := pow_pos (by norm_num) _
  have hdlt : bitsVal (l.drop n) < 2 ^ (l.length - n) := by
    have := bitsVal_lt (l.drop n)
    rwa [hdlen] at this
  constructor
  · rw [hsplit, Nat.mul_add_div hpos, Nat.div_eq_of_lt hdlt]
    omega
  · rw [hsplit, Nat.mul_add_mod, Nat.mod_eq_of_lt hdlt]


theorem any_beq_false_eq_not_all (l : List Bool) :
    l.any (fun b => b == false) = !(l.all (fun x => x)) := by
  induction l with
  | nil => rfl
  | cons x t ih =>
    cases x
    · rfl
    · simpa using ih

theorem headD_append (x y : List Bool) (h : x ≠ []) :
    (x ++ y).headD false = x.headD false := by
  cases x with
  | nil => simp at h
  | cons a t => rfl

/-- One shift-add iteration: lengths are preserved and the combined A:Q
value follows the halving recurrence. -/
theorem mulStep_spec (M A Q : List Bool) (hA : A.length = 32) (hQ : Q.length = 32)
    (hM : M.length = 32) (hbound : bitsVal A + bitsVal M < 2 ^ 32) :
    (MDU.mulStep M (A, Q)).1.length = 32 ∧ (MDU.mulStep M (A, Q)).2.length = 32 ∧
    bitsVal (MDU.mulStep M (A, Q)).1 * 2 ^ 32 + bitsVal (MDU.mulStep M (A, Q)).2
      = (bitsVal A * 2 ^ 32 + bitsVal Q + bitsVal Q % 2 * (bitsVal M * 2 ^ 32)) / 2 := by
  have hAne : A ≠ [] := by intro hx; rw [hx] at hA; simp at hA
  have hQne : Q ≠ [] := by intro hx; rw [hx] at hQ; simp at hQ
  simp only [MDU.mulStep]
  set A1 := (if Q.getLastD false = true then
      match ALU.add A M with
      | .ok r => r.result
      | .error _ => A
    else A) with hA1def
  have hA1 : A1.length = 32 ∧ bitsVal A1 = bitsVal A + bitsVal Q % 2 * bitsVal M := by
    have hQlast : (Q.getLastD false).toNat = bitsVal Q % 2 := by
      have h1 := bitsVal_dropLast_getLast Q hQne
      have h2 := Bool.toNat_le (Q.getLastD false)
      omega
    rcases hgl : Q.getLastD false with _ | _
    · rw [hA1def, hgl]
      have hq0 : bitsVal Q % 2 = 0 := by rw [← hQlast, hgl]; rfl
      simp [hq0, hA]
    · have hq1 : bitsVal Q % 2 = 1 := by rw [← hQlast, hgl]; rfl
      have hmr := add_match_result A M (by omega) (by omega)
      rw [hA1def, hgl, if_pos rfl, hmr]
      constructor
      · rw [ALU.rippleAdd_length A M false (by omega), hA]
      · rw [ALU.bitsVal_rippleAdd A M false (by omega), hA, hq1]
        simp only [Bool.toNat_false]
        rw [Nat.mod_eq_of_lt (by omega)]
        ring
  obtain ⟨hA1len, hA1val⟩ := hA1
  have hA1ne : A1 ≠ [] := by intro hx; rw [hx] at hA1len; simp at hA1len
  rw [Shifter.srl_one A1 hA1ne, Shifter.srl_one Q hQne, List.set_cons_zero]
  have hA1dl : A1.dropLast.length = 31 := by rw [List.length_dropLast, hA1len]
  have hQdl : Q.dropLast.length = 31 := by rw [List.length_dropLast, hQ]
  refine ⟨by simp [hA1dl], by simp [hQdl], ?_⟩
  have hvA2 : bitsVal (false :: A1.dropLast) = bitsVal A1 / 2 := by
    rw [bitsVal_cons]
    have h1 := bitsVal_dropLast_getLast A1 hA1ne
    have h2 := Bool.toNat_le (A1.getLastD false)
    simp only [if_neg (by simp : ¬ (false = true))]
    omega
  have hvQ3 : bitsVal (A1.getLastD false :: Q.dropLast)
      = (A1.getLastD false).toNat * 2 ^ 31 + bitsVal Q / 2 := by
    rw [bitsVal_cons, ite_one_zero_eq_toNat, hQdl]
    have h1 := bitsVal_dropLast_getLast Q hQne
    have h2 := Bool.toNat_le (Q.getLastD false)
    omega
  have hlsb : (A1.getLastD false).toNat = bitsVal A1 % 2 := by
    have h1 := bitsVal_dropLast_getLast A1 hA1ne
    have h2 := Bool.toNat_le (A1.getLastD false)
    omega
  rw [hvA2, hvQ3, hlsb, hA1val]
  have hX32 : bitsVal A * 2 ^ 32 + bitsVal Q + bitsVal Q % 2 * (bitsVal M * 2 ^ 32)
      = (bitsVal A + bitsVal Q % 2 * bitsVal M) * 2 ^ 32 + bitsVal Q := by ring
  rw [hX32]
  omega

theorem mulLoop_succ (M : List Bool) (n : Nat) (p : List Bool × List Bool) :
    MDU.mulLoop M (n + 1) p = MDU.mulStep M (MDU.mulLoop M n p) := by
  induction n generalizing p with
  | zero => rfl
  | succ k ih =>
    have h1 : MDU.mulLoop M (k + 2) p = MDU.mulLoop M (k + 1) (MDU.mulStep M p) := rfl
    have h2 : MDU.mulLoop M (k + 1) p = MDU.mulLoop M k (MDU.mulStep M p) := rfl
    rw [h1, ih (MDU.mulStep M p), h2]

/-- Loop invariant of the shift-add multiplier: after k of the 32 steps the
combined A:Q register holds the partial product of M with the k consumed
multiplier bits next to the unconsumed multiplier bits. -/
theorem mulLoop_invariant (M Q0 : List Bool) (hM : M.length = 32) (hQ0 : Q0.length = 32)
    (hMb : bitsVal M < 2 ^ 31) (k : Nat) (hk : k ≤ 32) :
    (MDU.mulLoop M k (List.replicate 32 false, Q0)).1.length = 32 ∧
    (MDU.mulLoop M k (List.replicate 32 false, Q0)).2.length = 32 ∧
    bitsVal (MDU.mulLoop M k (List.replicate 32 false, Q0)).1 * 2 ^ 32
        + bitsVal (MDU.mulLoop M k (List.replicate 32 false, Q0)).2
      = bitsVal M * (bitsVal Q0 % 2 ^ k) * 2 ^ (32 - k) + bitsVal Q0 / 2 ^ k := by
  induction k with
  | zero =>
    have hL : MDU.mulLoop M 0 (List.replicate 32 false, Q0) = (List.replicate 32 false, Q0) :=
      rfl
    rw [hL]
    refine ⟨by simp, hQ0, ?_⟩
    rw [bitsVal_replicate_false]
    simp [Nat.mod_one]
  | succ k ih =>
    obtain ⟨hAl, hQl, hC⟩ := ih (by omega)
    have hklt : k < 32 := by omega
    rw [mulLoop_succ]
    set st := MDU.mulLoop M k (List.replicate 32 false, Q0) with hst
    set m := bitsVal M with hmdef
    set q := bitsVal Q0 with hqdef
    have hqlt : q < 2 ^ 32 := by
      have := bitsVal_lt Q0
      rwa [hQ0] at this
    have hQvlt : bitsVal st.2 < 2 ^ 32 := by
      have := bitsVal_lt st.2
      rwa [hQl] at this
    have hpk : (0:Nat) < 2 ^ k := pow_pos (by norm_num) _
    have hpowsplit : (2:Nat) ^ k * 2 ^ (32 - k) = 2 ^ 32 := by
      rw [← pow_add]
      congr 1
      omega
    have e1 : (2:Nat) ^ (32 - k) = 2 * 2 ^ (31 - k) := by
      rw [← pow_succ']
      congr 1
      omega
    have e2 : (2:Nat) ^ k * 2 ^ (31 - k) = 2 ^ 31 := by
      rw [← pow_add]
      congr 1
      omega
    have hmod_le : q % 2 ^ k ≤ 2 ^ k - 1 := by
      have := Nat.mod_lt q hpk
      omega
    have hdiv_le : q / 2 ^ k ≤ q := Nat.div_le_self _ _
    have hF_le : (q % 2 ^ k) * 2 ^ (32 - k) ≤ 2 ^ 32 - 2 ^ (32 - k) := by
      calc (q % 2 ^ k) * 2 ^ (32 - k) ≤ (2 ^ k - 1) * 2 ^ (32 - k) :=
            Nat.mul_le_mul_right _ hmod_le
        _ = 2 ^ k * 2 ^ (32 - k) - 2 ^ (32 - k) := by rw [Nat.sub_mul, one_mul]
        _ = 2 ^ 32 - 2 ^ (32 - k) := by rw [hpowsplit]
    have hpk32 : (1:Nat) ≤ 2 ^ (32 - k) := Nat.one_le_two_pow
    have hmF : m * ((q % 2 ^ k) * 2 ^ (32 - k)) ≤ m * (2 ^ 32 - 1) :=
      Nat.mul_le_mul_left m (by omega)
    have hCassoc : m * (q % 2 ^ k) * 2 ^ (32 - k) = m * ((q % 2 ^ k) * 2 ^ (32 - k)) := by
      ring
    rw [hCassoc] at hC
    have hm32 : m * (2 ^ 32 - 1) = m * 2 ^ 32 - m := by
      rw [Nat.mul_sub]
      ring_nf
    have hA_le : bitsVal st.1 ≤ m := by
      by_contra hcon
      push_neg at hcon
      have : (m + 1) * 2 ^ 32 ≤ bitsVal st.1 * 2 ^ 32 :=
        Nat.mul_le_mul_right _ hcon
      omega
    have hbound : bitsVal st.1 + bitsVal M < 2 ^ 32 := by
      rw [← hmdef]
      omega
    obtain ⟨h1, h2, h3⟩ := mulStep_spec M st.1 st.2 hAl hQl hM hbound
    refine ⟨h1, h2, ?_⟩
    rw [h3, ← hmdef]
    rw [hC]
    have hT2 : m * ((q % 2 ^ k) * 2 ^ (32 - k)) = 2 * (m * (q % 2 ^ k) * 2 ^ (31 - k)) := by
      rw [e1]
      ring
    have hparity : bitsVal st.2 % 2 = q / 2 ^ k % 2 := by
      omega
    have hq1 : q % 2 ^ (k + 1) = q % 2 ^ k + 2 ^ k * (q / 2 ^ k % 2) := by
      rw [pow_succ]
      exact Nat.mod_mul
    have hq2 : q / 2 ^ (k + 1) = q / 2 ^ k / 2 := by
      rw [pow_succ]
      exact (Nat.div_div_eq_div_mul _ _ _).symm
    have hP2 : m * (q % 2 ^ (k + 1)) * 2 ^ (31 - k)
        = m * (q % 2 ^ k) * 2 ^ (31 - k) + (q / 2 ^ k % 2) * (m * 2 ^ 31) := by
      rw [hq1]
      calc m * (q % 2 ^ k + 2 ^ k * (q / 2 ^ k % 2)) * 2 ^ (31 - k)
          = m * (q % 2 ^ k) * 2 ^ (31 - k) + (q / 2 ^ k % 2) * m * (2 ^ k * 2 ^ (31 - k)) := by
            ring
        _ = m * (q % 2 ^ k) * 2 ^ (31 - k) + (q / 2 ^ k % 2) * (m * 2 ^ 31) := by
            rw [e2]
            ring
    have e4 : 32 - (k + 1) = 31 - k := by omega
    have hm322 : m * 2 ^ 32 = 2 * (m * 2 ^ 31) := by
      have : (2:Nat) ^ 32 = 2 * 2 ^ 31 := by norm_num
      rw [this]
      ring
    rw [e4, hparity]
    rcases Nat.mod_two_eq_zero_or_one (q / 2 ^ k) with hb | hb <;>
      rw [hb] at hP2 hq1 ⊢ <;> omega

/-- Magnitude bits used by `MDU.mul` and `Divider.div`: encoding the
absolute value of an in-range decoded value gives a pattern whose unsigned
value is the `natAbs`, of the right width. -/
theorem encode_abs_bits (v : Int) (hle : |v| ≤ 2 ^ 31 - 1) :
    bitsVal (TwosComplement.encode |v| 32).bits = v.natAbs ∧
    (TwosComplement.encode |v| 32).bits.length = 32 := by
  have h0 : (0:Int) ≤ |v| := abs_nonneg v
  have hlow : -(2 ^ (32 - 1) : Int) ≤ |v| := by
    have h2 : (0:Int) ≤ 2 ^ (32 - 1) := by positivity
    omega
  have hhigh : |v| ≤ (2:Int) ^ (32 - 1) - 1 := by
    have h3 : (2:Int) ^ (32 - 1) = 2 ^ 31 := by norm_num
    omega
  have hE := encode_bits_val |v| 32 (by norm_num) hlow hhigh
  have hlt : |v| < (2:Int) ^ 32 := by
    have : ((2:Int) ^ 31 - 1) < 2 ^ 32 := by norm_num
    omega
  have h1 := hE.1
  rw [Int.emod_eq_of_lt h0 hlt] at h1
  have hna : |v| = (v.natAbs : Int) := Int.abs_eq_natAbs v
  rw [hna] at h1
  exact ⟨by exact_mod_cast h1, hE.2⟩

section

attribute [local irreducible] MDU.mulLoop

/-- C2 (amended): for 32-bit operands neither of which decodes to -2^31,
`MDU.mul` returns a high and low half whose 64-bit concatenation is the
two's-complement representation of the exact product, and its overflow
output is 1 iff (the operand sign bits are equal and the high half is
non-zero) or (the sign bits differ and the high half is not all-ones). -/
theorem c2_mul_product_and_overflow (a b : List Bool)
    (ha : a.length = 32) (hb : b.length = 32)
    (hva : TwosComplement.decode a ≠ -(2 ^ 31))
    (hvb : TwosComplement.decode b ≠ -(2 ^ 31)) :
    ((bitsVal (MDU.mul a b).hi * 2 ^ 32 + bitsVal (MDU.mul a b).rd : Int)
      = TwosComplement.decode a * TwosComplement.decode b % 2 ^ 64) ∧
    ((MDU.mul a b).overflow
      = if a.headD false ^^ b.headD false
        then !((MDU.mul a b).hi.all (fun x => x))
        else (MDU.mul a b).hi.any (fun x => x)) ∧
    (MDU.mul a b).hi.length = 32 ∧ (MDU.mul a b).rd.length = 32 := by
  have hrange_a := decode_range a (by omega)
  have hrange_b := decode_range b (by omega)
  rw [ha] at hrange_a
  rw [hb] at hrange_b
  norm_num at hrange_a hrange_b
  have habs_a : |TwosComplement.decode a| ≤ (2:Int) ^ 31 - 1 := by
    rcases abs_cases (TwosComplement.decode a) with ⟨h1, h2⟩ | ⟨h1, h2⟩ <;> omega
  have habs_b : |TwosComplement.decode b| ≤ (2:Int) ^ 31 - 1 := by
    rcases abs_cases (TwosComplement.decode b) with ⟨h1, h2⟩ | ⟨h1, h2⟩ <;> omega
  obtain ⟨hMval, hMlen⟩ := encode_abs_bits (TwosComplement.decode a) habs_a
  obtain ⟨hQval, hQlen⟩ := encode_abs_bits (TwosComplement.decode b) habs_b
  have hcast31 : (((2:Nat) ^ 31 : Nat) : Int) = (2:Int) ^ 31 := by push_cast; try ring
  have hna_lt : (TwosComplement.decode a).natAbs < 2 ^ 31 := by
    have := Int.abs_eq_natAbs (TwosComplement.decode a)
    omega
  have hnb_lt : (TwosComplement.decode b).natAbs < 2 ^ 31 := by
    have := Int.abs_eq_natAbs (TwosComplement.decode b)
    omega
  have hMb : bitsVal (TwosComplement.encode |TwosComplement.decode a| 32).bits < 2 ^ 31 := by
    rw [hMval]
    exact hna_lt
  obtain ⟨hAl, hQl, hC⟩ :=
    mulLoop_invariant (TwosComplement.encode |TwosComplement.decode a| 32).bits
      (TwosComplement.encode |TwosComplement.decode b| 32).bits hMlen hQlen hMb 32 le_rfl
  set A := (MDU.mulLoop (TwosComplement.encode |TwosComplement.decode a| 32).bits 32
      (List.replicate 32 false,
        (TwosComplement.encode |TwosComplement.decode b| 32).bits)).1 with hAdef
  set Q := (MDU.mulLoop (TwosComplement.encode |TwosComplement.decode a| 32).bits 32
      (List.replicate 32 false,
        (TwosComplement.encode |TwosComplement.decode b| 32).bits)).2 with hQdef
  have hQ0lt : bitsVal (TwosComplement.encode |TwosComplement.decode b| 32).bits < 2 ^ 32 := by
    have := bitsVal_lt (TwosComplement.encode |TwosComplement.decode b| 32).bits
    rwa [hQlen] at this
  rw [Nat.mod_eq_of_lt hQ0lt, Nat.div_eq_of_lt hQ0lt, Nat.sub_self, pow_zero,
    Nat.mul_one, Nat.add_zero, hMval, hQval] at hC
  set na := (TwosComplement.decode a).natAbs with hnadef
  set nb := (TwosComplement.decode b).natAbs with hnbdef
  have hp62 : na * nb < 2 ^ 62 := by
    calc na * nb ≤ (2 ^ 31 - 1) * (2 ^ 31 - 1) :=
          Nat.mul_le_mul (by omega) (by omega)
      _ < 2 ^ 62 := by norm_num
  have hQvlt : bitsVal Q < 2 ^ 32 := by
    have := bitsVal_lt Q
    rwa [hQl] at this
  have hvA : bitsVal A = na * nb / 2 ^ 32 := by omega
  have hvQ : bitsVal Q = na * nb % 2 ^ 32 := by omega
  have hnatabs_mul : (TwosComplement.decode a * TwosComplement.decode b).natAbs = na * nb := by
    rw [Int.natAbs_mul]
  have hsa : a.headD false = decide (TwosComplement.decode a < 0) :=
    headD_decide_decode_neg a (by omega)
  have hsb : b.headD false = decide (TwosComplement.decode b < 0) :=
    headD_decide_decode_neg b (by omega)
  have hp64 : ((na * nb : Nat) : Int) < 2 ^ 64 := by
    have h62 : ((2:Nat) ^ 62 : Int) = (2:Int) ^ 62 := by push_cast; try ring
    have : ((2:Int) ^ 62) < 2 ^ 64 := by norm_num
    omega
  rcases hfs : (a.headD false ^^ b.headD false) with _ | _
  · -- equal signs: no fix-up, product is nonnegative
    have hsame : (TwosComplement.decode a < 0) ↔ (TwosComplement.decode b < 0) := by
      rw [hsa, hsb] at hfs
      by_cases h1 : TwosComplement.decode a < 0 <;>
        by_cases h2 : TwosComplement.decode b < 0 <;> simp [h1, h2] at hfs ⊢
    have hprod_nonneg : 0 ≤ TwosComplement.decode a * TwosComplement.decode b := by
      rcases lt_or_le (TwosComplement.decode a) 0 with h1 | h1
      · have h2 := hsame.mp h1
        have h3 := mul_nonneg (neg_nonneg.mpr (le_of_lt h1)) (neg_nonneg.mpr (le_of_lt h2))
        rwa [neg_mul_neg] at h3
      · exact mul_nonneg h1 (not_lt.mp (fun h2 => absurd (hsame.mpr h2) (not_lt.mpr h1)))
    have hprodval : TwosComplement.decode a * TwosComplement.decode b = ((na * nb : Nat) : Int) := by
      omega
    have hmul_eq : MDU.mul a b
        = { rd := Q, hi := A, overflow := A.any (fun bb => bb == true) } := by
      simp only [MDU.mul, MDU.is_neg]
      rw [hfs]
      rfl
    rw [hmul_eq]
    refine ⟨?_, ?_, hAl, hQl⟩
    · show (bitsVal A * 2 ^ 32 + bitsVal Q : Int) = _
      rw [hprodval, Int.emod_eq_of_lt (by omega) hp64]
      push_cast
      omega
    · simp
  · -- differing signs: 64-bit negation fix-up
    have hdiff : (TwosComplement.decode a < 0) ↔ ¬ (TwosComplement.decode b < 0) := by
      rw [hsa, hsb] at hfs
      by_cases h1 : TwosComplement.decode a < 0 <;>
        by_cases h2 : TwosComplement.decode b < 0 <;> simp [h1, h2] at hfs ⊢
    have hprod_nonpos : TwosComplement.decode a * TwosComplement.decode b ≤ 0 := by
      rcases lt_or_le (TwosComplement.decode a) 0 with h1 | h1
      · exact mul_nonpos_iff.mpr (Or.inr ⟨le_of_lt h1, not_lt.mp (hdiff.mp h1)⟩)
      · have h2 : TwosComplement.decode b < 0 := by
          by_contra hcon
          exact absurd (hdiff.mpr hcon) (not_lt.mpr h1)
        exact mul_nonpos_iff.mpr (Or.inl ⟨h1, le_of_lt h2⟩)
    have hprodval : TwosComplement.decode a * TwosComplement.decode b
        = -((na * nb : Nat) : Int) := by
      omega
    have hAne : A ≠ [] := by intro hx; rw [hx] at hAl; simp at hAl
    have hAhead : A.headD false = false := by
      rw [TwosComplement.headD_false_iff A (by omega), hAl]
      have h31 : (32:Nat) - 1 = 31 := rfl
      rw [h31]
      omega
    have hfullhead : (A ++ Q).headD false = false := by
      rw [headD_append A Q hAne]
      exact hAhead
    have hfulllen : (A ++ Q).length = 64 := by
      rw [List.length_append, hAl, hQl]
    have hfullval : bitsVal (A ++ Q) = na * nb := by
      rw [bitsVal_append, hQl]
      omega
    have hdecfull : TwosComplement.decode (A ++ Q) = ((na * nb : Nat) : Int) := by
      rw [TwosComplement.decode_of_head_false _ hfullhead, hfullval]
    have hnn : (0:Int) ≤ ((na * nb : Nat) : Int) := by positivity
    have h63 : ((2:Int) ^ 63) = 2 ^ 63 := rfl
    have hnegE := encode_bits_val (-((na * nb : Nat) : Int)) 64 (by norm_num)
      (by
        have h64 : (2:Int) ^ (64 - 1) = 2 ^ 63 := by norm_num
        have h6263 : ((2:Int) ^ 62) ≤ 2 ^ 63 := by norm_num
        have h62 : ((na * nb : Nat) : Int) < 2 ^ 62 := by
          have hc : ((2:Nat) ^ 62 : Int) = (2:Int) ^ 62 := by push_cast; try ring
          omega
        omega)
      (by
        have h64 : (2:Int) ^ (64 - 1) = 2 ^ 63 := by norm_num
        have : (0:Int) < 2 ^ 63 := by positivity
        omega)
    have hmul_eq : MDU.mul a b
        = { rd := (TwosComplement.encode (-(TwosComplement.decode (A ++ Q))) 64).bits.drop 32,
            hi := (TwosComplement.encode (-(TwosComplement.decode (A ++ Q))) 64).bits.take 32,
            overflow :=
              ((TwosComplement.encode (-(TwosComplement.decode (A ++ Q))) 64).bits.take 32).any
                  (fun bb => bb == false) ||
                (decide ((TwosComplement.encode (-(TwosComplement.decode (A ++ Q))) 64).bits.take 32
                    = (TwosComplement.encode (-(2 ^ 31)) 32).bits) &&
                 decide (Q = List.replicate 32 false)) } := by
      simp only [MDU.mul, MDU.is_neg]
      rw [hfs]
      rfl
    rw [hmul_eq, hdecfull]
    set negRes := (TwosComplement.encode (-((na * nb : Nat) : Int)) 64).bits with hnegdef
    obtain ⟨hnegval, hneglen⟩ := hnegE
    have htd := bitsVal_take_drop negRes 32 (by omega)
    rw [hneglen] at htd
    have h3232 : (64:Nat) - 32 = 32 := rfl
    rw [h3232] at htd
    obtain ⟨htake, hdrop⟩ := htd
    have htklen : (negRes.take 32).length = 32 := by
      rw [List.length_take, hneglen]
      omega
    have hdplen : (negRes.drop 32).length = 32 := by
      rw [List.length_drop, hneglen]
    refine ⟨?_, ?_, htklen, hdplen⟩
    · show (bitsVal (negRes.take 32) * 2 ^ 32 + bitsVal (negRes.drop 32) : Int) = _
      rw [htake, hdrop, hprodval, ← hnegval]
      omega
    · rw [if_pos rfl]
      show _ = !((negRes.take 32).all fun x => x)
      by_cases hmin : negRes.take 32 = (TwosComplement.encode (-(2 ^ 31)) 32).bits
      · rw [hmin]
        have h1 : ((TwosComplement.encode (-(2 ^ 31)) 32).bits).any
            (fun bb => bb == false) = true := by decide
        have h2 : (!(((TwosComplement.encode (-(2 ^ 31)) 32).bits).all fun x => x)) = true := by
          decide
        rw [h1, h2]
        simp
      · rw [decide_eq_false hmin]
        simp only [Bool.false_and, Bool.or_false]
        exact any_beq_false_eq_not_all _

end

/-- Counterexample to C2: at rs1 = encode(-2^31) and rs2 = encode(1) the
concatenation hi:lo returned by `MDU.mul` is not the 64-bit two's-complement
representation of the exact product -2^31 (the magnitude pass clamps
abs(-2^31) to 2^31 - 1, so hi:lo holds -(2^31 - 1) instead). -/
theorem c2_counterexample :
    (bitsVal (MDU.mul (TwosComplement.encode (-(2 ^ 31)) 32).bits
          (TwosComplement.encode 1 32).bits).hi * 2 ^ 32
        + bitsVal (MDU.mul (TwosComplement.encode (-(2 ^ 31)) 32).bits
          (TwosComplement.encode 1 32).bits).rd : Int)
      ≠ TwosComplement.decode (TwosComplement.encode (-(2 ^ 31)) 32).bits
          * TwosComplement.decode (TwosComplement.encode 1 32).bits % 2 ^ 64 := by
  decide

/-- Witness for C2's amended statement at the spec's example operands
12345 and 6789. -/
theorem c2_mul_product_and_overflow_witness :
    ((bitsVal (MDU.mul (TwosComplement.encode 12345 32).bits
          (TwosComplement.encode 6789 32).bits).hi * 2 ^ 32
        + bitsVal (MDU.mul (TwosComplement.encode 12345 32).bits
          (TwosComplement.encode 6789 32).bits).rd : Int)
      = TwosComplement.decode (TwosComplement.encode 12345 32).bits
          * TwosComplement.decode (TwosComplement.encode 6789 32).bits % 2 ^ 64) ∧
    ((MDU.mul (TwosComplement.encode 12345 32).bits
        (TwosComplement.encode 6789 32).bits).overflow
      = if (TwosComplement.encode 12345 32).bits.headD false
          ^^ (TwosComplement.encode 6789 32).bits.headD false
        then !((MDU.mul (TwosComplement.encode 12345 32).bits
            (TwosComplement.encode 6789 32).bits).hi.all (fun x => x))
        else (MDU.mul (TwosComplement.encode 12345 32).bits
            (TwosComplement.encode 6789 32).bits).hi.any (fun x => x)) ∧
    (MDU.mul (TwosComplement.encode 12345 32).bits
        (TwosComplement.encode 6789 32).bits).hi.length = 32 ∧
    (MDU.mul (TwosComplement.encode 12345 32).bits
        (TwosComplement.encode 6789 32).bits).rd.length = 32 :=
  c2_mul_product_and_overflow (TwosComplement.encode 12345 32).bits
    (TwosComplement.encode 6789 32).bits (by decide) (by decide) (by decide) (by decide)

/-- C6: for every pair of equal-width (nonempty, in particular 32-bit)
operands, the V flag that `ALU.add` and `ALU.sub` compute as carry-into-MSB
XOR carry-out-of-MSB equals the sign-based formulation: for add, V = 1 iff
the operand sign bits are equal and the result sign differs from them; for
sub, V = 1 iff the operand sign bits differ and the result sign differs from
the minuend's. -/
theorem c6_overflow_formulations (x : Bool) (as : List Bool) (y : Bool) (bs : List Bool)
    (h : as.length = bs.length) :
    (∃ r, ALU.add (x :: as) (y :: bs) = .ok r ∧ r.V = ((x == y) && (r.N != x))) ∧
    (∃ r, ALU.sub (x :: as) (y :: bs) = .ok r ∧ r.V = ((x != y) && (r.N != x))) := by
  constructor
  · have hw : ¬ ((y :: bs).length ≠ (x :: as).length) := by simp [h]
    have hadd : ALU.add (x :: as) (y :: bs) = ALU.flagsOf (x :: as) (y :: bs) false := by
      rw [ALU.add, if_neg hw]
    rw [hadd, ALU.flagsOf]
    refine ⟨_, rfl, ?_⟩
    generalize (ALU.rippleAdd as bs false).2 = c
    cases x <;> cases y <;> cases c <;> rfl
  · have hw : ¬ ((y :: bs).length < (x :: as).length) := by simp [h]
    have hsub : ALU.sub (x :: as) (y :: bs)
        = ALU.flagsOf (x :: as)
            ((TwosComplement.invert (y :: bs)).take (x :: as).length) true := by
      rw [ALU.sub, if_neg hw]
    have htake : (TwosComplement.invert (y :: bs)).take (x :: as).length
        = (!y) :: TwosComplement.invert bs := by
      have hlen : (TwosComplement.invert bs).length = as.length := by
        rw [TwosComplement.length_invert, h]
      simp [TwosComplement.invert, List.take_succ_cons, ← hlen]
    rw [hsub, htake, ALU.flagsOf]
    refine ⟨_, rfl, ?_⟩
    generalize (ALU.rippleAdd as (TwosComplement.invert bs) true).2 = c
    cases x <;> cases y <;> cases c <;> rfl

/-- Witness for C6 at the width-2 operands 01 and 01. -/
theorem c6_overflow_formulations_witness :
    (∃ r, ALU.add (false :: [true]) (false :: [true]) = .ok r ∧
      r.V = ((false == false) && (r.N != false))) ∧
    (∃ r, ALU.sub (false :: [true]) (false :: [true]) = .ok r ∧
      r.V = ((false != false) && (r.N != false))) :=
  c6_overflow_formulations false [true] false [true] rfl

/-- Counterexample to C8: `ALU.sub` invoked on a width-1 first operand and a
width-2 second operand does not fail at all — it returns a normal result
record, so unequal-width `sub` does not raise WidthMismatch. -/
theorem c8_counterexample :
    ALU.sub [false] [false, false]
      = .ok { result := [false], N := false, Z := true, C := true, V := false } := by
  rfl

/-- C8 amended: `ALU.add` fails with WidthMismatch on every unequal-width
pair, but `ALU.sub` has no width check: with a strictly shorter second
operand it fails with an IndexError (not WidthMismatch), and with a strictly
longer second operand (and a nonempty first operand) it returns a result
record without any error. -/
theorem c8_add_checks_sub_does_not (a b : List Bool) (h : a.length ≠ b.length) :
    ALU.add a b = .error .widthMismatch ∧
    (b.length < a.length → ALU.sub a b = .error .indexOutOfRange) ∧
    (a.length < b.length → 0 < a.length → ∃ r, ALU.sub a b = .ok r) := by
  refine ⟨?_, ?_, ?_⟩
  · rw [ALU.add, if_pos (fun hx => h hx.symm)]
  · intro hlt
    rw [ALU.sub]
    simp only [if_pos hlt]
  · intro hlt hpos
    cases a with
    | nil => simp at hpos
    | cons x as =>
      cases b with
      | nil => simp at hlt
      | cons y bs =>
        have hnlt : ¬ ((y :: bs).length < (x :: as).length) := by omega
        rw [ALU.sub]
        simp only [if_neg hnlt]
        have htake : (TwosComplement.invert (y :: bs)).take (x :: as).length
            = (!y) :: (TwosComplement.invert bs).take as.length := by
          simp [TwosComplement.invert, List.take_succ_cons]
        rw [htake, ALU.flagsOf]
        exact ⟨_, rfl⟩

/-- Witness for C8's amended statement at widths 1 and 2. -/
theorem c8_add_checks_sub_does_not_witness :
    ALU.add [false] [false, false] = .error .widthMismatch ∧
    ((2:Nat) < 1 → ALU.sub [false] [false, false] = .error .indexOutOfRange) ∧
    ((1:Nat) < 2 → 0 < 1 → ∃ r, ALU.sub [false] [false, false] = .ok r) := by
  have := c8_add_checks_sub_does_not [false] [false, false] (by decide)
  simpa using this

namespace Divider

/-- Result record of `Divider.div` (`part5_division.py`): quotient and
remainder bit vectors; the `trace` list of the Python dict is omitted. -/
structure DivResult where
  quotient : List Bool
  remainder : List Bool
deriving DecidableEq

/-- One iteration of the restoring-division loop in `Divider.div`: shift the
combined R:Q register left (R's vacated LSB receives Q's MSB, read before Q
itself shifts), subtract M from the shifted R through the ALU, and either
keep the difference and set the quotient LSB (`Q[width-1] = 1`) when the
carry is 1 (R >= M) or restore R and clear the quotient LSB.  The ALU call
cannot fail here (R and M are both `width` bits in every reachable state);
the error arm keeps the shifted pair and is unreachable. -/
def divStep (width : Nat) (M : List Bool) (p : List Bool × List Bool) : List Bool × List Bool :=
  let R := p.1
  let Q := p.2
  let R1 := R.tail ++ [Q.headD false]
  let Q1 := Q.tail ++ [false]
  match ALU.sub R1 M with
  | .ok sub_result =>
      if sub_result.C = true then (sub_result.result, Q1.set (width - 1) true)
      else (R1, Q1.set (width - 1) false)
  | .error _ => (R1, Q1)

/-- The `for i in range(1, width + 1)` loop of `Divider.div`: `k`
applications of `divStep`. -/
def divLoop (width : Nat) (M : List Bool) : Nat → (List Bool × List Bool) → List Bool × List Bool
  | 0, p => p
  | n + 1, p => divLoop width M n (divStep width M p)

/-- `Divider.div` (`part5_division.py`): division-by-zero and
INT_MIN / -1 special cases first, then sign capture, magnitude conversion of
both operands, `width` restoring-division steps and the final sign fix-ups
(the remainder one skipped when the raw remainder is all-zero). -/
def div (rs1_bits rs2_bits : List Bool) : DivResult :=
  let width := rs1_bits.length
  let is_zero := rs2_bits.all (fun bb => bb == false)
  if is_zero then
    { quotient := List.replicate width true, remainder := rs1_bits }
  else
    let int_min := (TwosComplement.encode (-(2 ^ 31)) 32).bits
    let neg_one := (TwosComplement.encode (-1) 32).bits
    if rs1_bits = int_min ∧ rs2_bits = neg_one then
      { quotient := int_min, remainder := List.replicate width false }
    else
      let sign_dividend := MDU.is_neg rs1_bits
      let sign_divisor := MDU.is_neg rs2_bits
      let sign_q := sign_dividend ^^ sign_divisor
      let sign_r := sign_dividend
      let Q0 := if sign_dividend then
          (TwosComplement.encode (-(TwosComplement.decode rs1_bits)) 32).bits
        else rs1_bits
      let M := if sign_divisor then
          (TwosComplement.encode (-(TwosComplement.decode rs2_bits)) 32).bits
        else rs2_bits
      let p := divLoop width M width (List.replicate width false, Q0)
      let R := p.1
      let Q := p.2
      let final_quotient := if sign_q then
          (TwosComplement.encode (-(TwosComplement.decode Q)) 32).bits
        else Q
      let final_remainder := if sign_r && !(R.all (fun bb => bb == false)) then
          (TwosComplement.encode (-(TwosComplement.decode R)) 32).bits
        else R
      { quotient := final_quotient, remainder := final_remainder }

end Divider

theorem set_last_concat (xs : List Bool) (d c : Bool) :
    (xs ++ [d]).set xs.length c = xs ++ [c] := by
  induction xs with
  | nil => rfl
  | cons x t ih => simpa using ih

theorem bitsVal_tail (l : List Bool) (h : l ≠ []) :
    bitsVal l = (l.headD false).toNat * 2 ^ (l.length - 1) + bitsVal l.tail := by
  cases l with
  | nil => exact absurd rfl h
  | cons b t =>
    rw [bitsVal_cons, ite_one_zero_eq_toNat]
    simp

theorem all_beq_false_iff (l : List Bool) :
    (l.all (fun bb => bb == false)) = true ↔ bitsVal l = 0 := by
  rw [bitsVal_eq_zero_iff]
  induction l with
  | nil => simp
  | cons b t ih =>
    cases b with
    | false => simpa [List.replicate_succ] using ih
    | true => simp [List.replicate_succ]

theorem decode_eq_zero_iff (l : List Bool) :
    TwosComplement.decode l = 0 ↔ bitsVal l = 0 := by
  rcases hh : l.headD false with _ | _
  · rw [TwosComplement.decode_of_head_false l hh]
    omega
  · rw [TwosComplement.decode_of_head_true l hh]
    have h1 := headD_true_le l hh
    have h2 := bitsVal_lt l
    have hpos : 0 < l.length := by
      cases l with
      | nil => simp at hh
      | cons b t => simp
    have hpow : 1 ≤ 2 ^ (l.length - 1) := Nat.one_le_two_pow
    have hc : ((2:Nat) ^ l.length : Int) = (2:Int) ^ l.length := by push_cast; ring
    constructor
    · intro hcon
      omega
    · intro hcon
      omega

/-- `ALU.flagsOf` on nonempty operands always succeeds, and the result and
carry fields are those of the ripple-carry loop. -/
theorem flagsOf_ok_of_pos (a b : List Bool) (ha : a ≠ []) (hb : b ≠ []) (cin : Bool) :
    ∃ r : ALU.AluResult, ALU.flagsOf a b cin = .ok r ∧
      r.result = (ALU.rippleAdd a b cin).1 ∧ r.C = (ALU.rippleAdd a b cin).2 := by
  cases a with
  | nil => exact absurd rfl ha
  | cons x as =>
    cases b with
    | nil => exact absurd rfl hb
    | cons y bs => exact ⟨_, rfl, rfl, rfl⟩

/-- `ALU.sub` on equal positive widths: succeeds, preserves the width, sets
C iff no borrow (B <= A), and the result is A - B modulo 2^width. -/
theorem sub_spec (a b : List Bool) (h : b.length = a.length) (hpos : 0 < a.length) :
    ∃ r : ALU.AluResult, ALU.sub a b = .ok r ∧ r.result.length = a.length ∧
      (r.C = true ↔ bitsVal b ≤ bitsVal a) ∧
      bitsVal r.result = (bitsVal a + (2 ^ a.length - bitsVal b)) % 2 ^ a.length := by
  have hnl : ¬ b.length < a.length := by omega
  have hna : a ≠ [] := by
    cases a with
    | nil => simp at hpos
    | cons x as => simp
  have hib : (TwosComplement.invert b).length = a.length := by
    rw [TwosComplement.length_invert, h]
  have htake : (TwosComplement.invert b).take a.length = TwosComplement.invert b := by
    rw [← hib]
    exact List.take_length _
  have hnb : TwosComplement.invert b ≠ [] := by
    intro hcon
    rw [hcon] at hib
    simp at hib
    omega
  have hsub : ALU.sub a b = ALU.flagsOf a ((TwosComplement.invert b).take a.length) true := by
    rw [ALU.sub]
    simp only [if_neg hnl]
  rw [hsub, htake]
  obtain ⟨r, hok, hres, hC⟩ := flagsOf_ok_of_pos a (TwosComplement.invert b) hna hnb true
  have hlen : a.length = (TwosComplement.invert b).length := hib.symm
  have hbl : bitsVal b < 2 ^ a.length := by
    have := bitsVal_lt b
    rwa [h] at this
  have hinv : bitsVal (TwosComplement.invert b) = 2 ^ a.length - 1 - bitsVal b := by
    rw [TwosComplement.bitsVal_invert, h]
  refine ⟨r, hok, ?_, ?_, ?_⟩
  · rw [hres, ALU.rippleAdd_length a _ true hlen]
  · rw [hC, ALU.rippleAdd_carry a _ true hlen, hinv]
    have : (true : Bool).toNat = 1 := rfl
    rw [this]
    omega
  · rw [hres, ALU.bitsVal_rippleAdd a _ true hlen, hinv]
    have : (true : Bool).toNat = 1 := rfl
    rw [this]
    congr 1
    omega

/-- One restoring-division iteration: lengths are preserved, the remainder
register ends up holding `(2R + q_msb) mod M` (the conditional subtraction
equals a mod because `2R + q_msb < 2M` whenever `R < M`), and the quotient
register shifts in the comparison bit. -/
theorem divStep_spec (M R Q : List Bool) (hM : M.length = 32) (hR : R.length = 32)
    (hQ : Q.length = 32) (hRlt : bitsVal R < bitsVal M) (hMlt : bitsVal M < 2 ^ 31) :
    (Divider.divStep 32 M (R, Q)).1.length = 32 ∧
    (Divider.divStep 32 M (R, Q)).2.length = 32 ∧
    bitsVal (Divider.divStep 32 M (R, Q)).1
      = (2 * bitsVal R + bitsVal Q / 2 ^ 31) % bitsVal M ∧
    bitsVal (Divider.divStep 32 M (R, Q)).2
      = bitsVal Q % 2 ^ 31 * 2
        + (if bitsVal M ≤ 2 * bitsVal R + bitsVal Q / 2 ^ 31 then 1 else 0) := by
  have hRne : R ≠ [] := by
    intro hcon
    rw [hcon] at hR
    simp at hR
  have hQne : Q ≠ [] := by
    intro hcon
    rw [hcon] at hQ
    simp at hQ
  have hRt : R.tail.length = 31 := by rw [List.length_tail, hR]
  have hQt : Q.tail.length = 31 := by rw [List.length_tail, hQ]
  have hQlt : bitsVal Q < 2 ^ 32 := by
    have := bitsVal_lt Q
    rwa [hQ] at this
  have h31 : (2:Nat) ^ (32 - 1) = 2 ^ 31 := rfl
  have hRhead : R.headD false = false := by
    apply (TwosComplement.headD_false_iff R (by omega)).mpr
    rw [hR, h31]
    omega
  have hRtv : bitsVal R.tail = bitsVal R := by
    have hd := bitsVal_tail R hRne
    rw [hRhead] at hd
    simpa using hd.symm
  have hQdec := bitsVal_tail Q hQne
  rw [hQ, h31] at hQdec
  have hQtlt : bitsVal Q.tail < 2 ^ 31 := by
    have := bitsVal_lt Q.tail
    rwa [hQt] at this
  have hbeta : (Q.headD false).toNat = bitsVal Q / 2 ^ 31 := by
    rcases hQh : Q.headD false with _ | _ <;> rw [hQh] at hQdec <;> simp at hQdec ⊢ <;> omega
  have hQtv : bitsVal Q.tail = bitsVal Q % 2 ^ 31 := by
    rw [hbeta] at hQdec
    omega
  have hbeta1 : bitsVal Q / 2 ^ 31 ≤ 1 := by omega
  have hR1len : (R.tail ++ [Q.headD false]).length = 32 := by simp [hRt]
  have hR1v : bitsVal (R.tail ++ [Q.headD false]) = 2 * bitsVal R + bitsVal Q / 2 ^ 31 := by
    rw [bitsVal_concat, hRtv, ite_one_zero_eq_toNat, hbeta]
  obtain ⟨r, hok, hrlen, hrC, hrval⟩ := sub_spec (R.tail ++ [Q.headD false]) M
    (by rw [hM, hR1len]) (by rw [hR1len]; norm_num)
  rw [hR1len] at hrlen hrval
  rw [hR1v] at hrC hrval
  have hset : ∀ c : Bool, (Q.tail ++ [false]).set 31 c = Q.tail ++ [c] := by
    intro c
    have := set_last_concat Q.tail false c
    rwa [hQt] at this
  have hQ1v : ∀ c : Bool, bitsVal (Q.tail ++ [c]) = bitsVal Q % 2 ^ 31 * 2 + c.toNat := by
    intro c
    rw [bitsVal_concat, hQtv, ite_one_zero_eq_toNat]
    ring
  have hstep : Divider.divStep 32 M (R, Q)
      = if r.C = true then (r.result, (Q.tail ++ [false]).set 31 true)
        else (R.tail ++ [Q.headD false], (Q.tail ++ [false]).set 31 false) := by
    simp only [Divider.divStep]
    rw [hok]
  rw [hstep]
  rcases hCC : r.C with _ | _
  · rw [if_neg (by simp)]
    have hnle : ¬ bitsVal M ≤ 2 * bitsVal R + bitsVal Q / 2 ^ 31 := by
      intro hcon
      have hc2 := hrC.mpr hcon
      rw [hCC] at hc2
      simp at hc2
    refine ⟨hR1len, ?_, ?_, ?_⟩
    · rw [hset]
      simp [hQt]
    · rw [hR1v, Nat.mod_eq_of_lt (by omega)]
    · rw [hset, hQ1v, if_neg hnle]
      rfl
  · rw [if_pos rfl]
    have hle : bitsVal M ≤ 2 * bitsVal R + bitsVal Q / 2 ^ 31 := hrC.mp hCC
    refine ⟨hrlen, ?_, ?_, ?_⟩
    · rw [hset]
      simp [hQt]
    · rw [hrval]
      have hx2 : 2 * bitsVal R + bitsVal Q / 2 ^ 31 < 2 * bitsVal M := by omega
      have hmod : (2 * bitsVal R + bitsVal Q / 2 ^ 31) % bitsVal M
          = 2 * bitsVal R + bitsVal Q / 2 ^ 31 - bitsVal M := by
        rw [Nat.mod_eq_sub_mod hle, Nat.mod_eq_of_lt (by omega)]
      rw [hmod]
      have hsh : 2 * bitsVal R + bitsVal Q / 2 ^ 31 + (2 ^ 32 - bitsVal M)
          = (2 * bitsVal R + bitsVal Q / 2 ^ 31 - bitsVal M) + 2 ^ 32 := by omega
      rw [hsh, Nat.add_mod_right, Nat.mod_eq_of_lt (by omega)]
    · rw [hset, hQ1v, if_pos hle]
      rfl

theorem divLoop_succ (width : Nat) (M : List Bool) (n : Nat) (p : List Bool × List Bool) :
    Divider.divLoop width M (n + 1) p
      = Divider.divStep width M (Divider.divLoop width M n p) := by
  induction n generalizing p with
  | zero => rfl
  | succ k ih =>
    have h1 : Divider.divLoop width M (k + 2) p
        = Divider.divLoop width M (k + 1) (Divider.divStep width M p) := rfl
    have h2 : Divider.divLoop width M (k + 1) p
        = Divider.divLoop width M k (Divider.divStep width M p) := rfl
    rw [h1, ih (Divider.divStep width M p), h2]

/-- Loop invariant of the restoring divider: after k of the 32 steps the
remainder register holds the running remainder of the k consumed dividend
bits and the quotient register holds the unconsumed dividend bits next to
the running quotient. -/
theorem divLoop_invariant (M Q0 : List Bool) (hM : M.length = 32) (hQ0 : Q0.length = 32)
    (hM1 : 1 ≤ bitsVal M) (hMlt : bitsVal M < 2 ^ 31) (k : Nat) (hk : k ≤ 32) :
    (Divider.divLoop 32 M k (List.replicate 32 false, Q0)).1.length = 32 ∧
    (Divider.divLoop 32 M k (List.replicate 32 false, Q0)).2.length = 32 ∧
    bitsVal (Divider.divLoop 32 M k (List.replicate 32 false, Q0)).1
      = bitsVal Q0 / 2 ^ (32 - k) % bitsVal M ∧
    bitsVal (Divider.divLoop 32 M k (List.replicate 32 false, Q0)).2
      = bitsVal Q0 % 2 ^ (32 - k) * 2 ^ k + bitsVal Q0 / 2 ^ (32 - k) / bitsVal M := by
  have hqlt : bitsVal Q0 < 2 ^ 32 := by
    have := bitsVal_lt Q0
    rwa [hQ0] at this
  induction k with
  | zero =>
    have hL : Divider.divLoop 32 M 0 (List.replicate 32 false, Q0)
        = (List.replicate 32 false, Q0) := rfl
    rw [hL]
    have hd0 : bitsVal Q0 / 2 ^ (32 - 0) = 0 := Nat.div_eq_of_lt (by simpa using hqlt)
    refine ⟨by simp, hQ0, ?_, ?_⟩
    · rw [bitsVal_replicate_false, hd0, Nat.zero_mod]
    · rw [hd0]
      simp only [Nat.sub_zero, pow_zero, mul_one, Nat.zero_div, add_zero]
      omega
  | succ k ih =>
    obtain ⟨hRl, hQl, hRv, hQv⟩ := ih (by omega)
    rw [divLoop_succ]
    set st := Divider.divLoop 32 M k (List.replicate 32 false, Q0) with hst
    set q := bitsVal Q0 with hq_def
    set D := bitsVal M with hD_def
    have hD0 : 0 < D := hM1
    have hRlt : bitsVal st.1 < D := by
      rw [hRv]
      exact Nat.mod_lt _ (by omega)
    obtain ⟨h1, h2, h3, h4⟩ := divStep_spec M st.1 st.2 hM hRl hQl hRlt hMlt
    rw [Prod.mk.eta] at h1 h2 h3 h4
    have hXlt : q / 2 ^ (32 - k) < 2 ^ k := by
      rw [Nat.div_lt_iff_lt_mul (pow_pos two_pos _)]
      calc q < 2 ^ 32 := hqlt
        _ = 2 ^ k * 2 ^ (32 - k) := by
            rw [← pow_add]
            congr 1
            omega
    have hulty : q / 2 ^ (32 - k) / D < 2 ^ k :=
      lt_of_le_of_lt (Nat.div_le_self _ D) hXlt
    have hvk : bitsVal st.2 / 2 ^ k = q % 2 ^ (32 - k) := by
      rw [hQv, Nat.mul_comm (q % 2 ^ (32 - k)) (2 ^ k), Nat.mul_add_div (pow_pos two_pos k),
        Nat.div_eq_of_lt hulty, Nat.add_zero]
    have h31k : (2:Nat) ^ 31 = 2 ^ k * 2 ^ (31 - k) := by
      rw [← pow_add]
      congr 1
      omega
    have hA : bitsVal st.2 / 2 ^ 31 = q / 2 ^ (31 - k) % 2 := by
      rw [h31k, ← Nat.div_div_eq_div_mul, hvk]
      have hsk : (2:Nat) ^ (32 - k) = 2 ^ (31 - k) * 2 := by
        rw [← pow_succ]
        congr 1
        omega
      rw [hsk, Nat.mod_mul, Nat.add_mul_div_left _ _ (pow_pos two_pos (31 - k)),
        Nat.div_eq_of_lt (Nat.mod_lt q (pow_pos two_pos _))]
      omega
    have hX2 : q / 2 ^ (32 - k) = q / 2 ^ (31 - k) / 2 := by
      have hsk : (2:Nat) ^ (32 - k) = 2 ^ (31 - k) * 2 := by
        rw [← pow_succ]
        congr 1
        omega
      rw [hsk, ← Nat.div_div_eq_div_mul]
    have hXsplit : q / 2 ^ (31 - k)
        = D * (2 * (q / 2 ^ (32 - k) / D))
          + (2 * (q / 2 ^ (32 - k) % D) + q / 2 ^ (31 - k) % 2) := by
      have e1 : D * (q / 2 ^ (32 - k) / D) + q / 2 ^ (32 - k) % D = q / 2 ^ (32 - k) :=
        Nat.div_add_mod _ _
      calc q / 2 ^ (31 - k)
          = 2 * (q / 2 ^ (32 - k)) + q / 2 ^ (31 - k) % 2 := by omega
        _ = 2 * (D * (q / 2 ^ (32 - k) / D) + q / 2 ^ (32 - k) % D)
              + q / 2 ^ (31 - k) % 2 := by rw [e1]
        _ = _ := by ring
    rw [hRv, hA] at h3 h4
    have hv5 : bitsVal st.2 % 2 ^ 31
        = q / 2 ^ (32 - k) / D + 2 ^ k * (q % 2 ^ (31 - k)) := by
      have hvmod : bitsVal st.2 % 2 ^ k = q / 2 ^ (32 - k) / D := by
        rw [hQv, Nat.mul_comm (q % 2 ^ (32 - k)) (2 ^ k), Nat.mul_add_mod]
        exact Nat.mod_eq_of_lt hulty
      rw [h31k, Nat.mod_mul, hvk, hvmod,
        Nat.mod_mod_of_dvd q (pow_dvd_pow 2 (by omega))]
    refine ⟨h1, h2, ?_, ?_⟩
    · rw [show 32 - (k + 1) = 31 - k from by omega, h3]
      conv_rhs => rw [hXsplit]
      rw [Nat.mul_add_mod]
    · rw [show 32 - (k + 1) = 31 - k from by omega, h4, hv5]
      have hdiv : q / 2 ^ (31 - k) / D
          = 2 * (q / 2 ^ (32 - k) / D)
            + (if D ≤ 2 * (q / 2 ^ (32 - k) % D) + q / 2 ^ (31 - k) % 2 then 1 else 0) := by
        conv_lhs => rw [hXsplit]
        rw [Nat.mul_add_div hD0]
        congr 1
        rcases le_or_lt D (2 * (q / 2 ^ (32 - k) % D) + q / 2 ^ (31 - k) % 2) with hc | hc
        · rw [if_pos hc]
          apply Nat.div_eq_of_lt_le
          · omega
          · have := Nat.mod_lt (q / 2 ^ (32 - k)) (show 0 < D by omega)
            omega
        · rw [if_neg (not_le.mpr hc)]
          exact Nat.div_eq_of_lt hc
      rw [hdiv, pow_succ]
      ring

theorem tdiv_ofNat (m n : Nat) : Int.tdiv (m : Int) (n : Int) = ((m / n : Nat) : Int) := rfl

theorem tmod_ofNat (m n : Nat) : Int.tmod (m : Int) (n : Int) = ((m % n : Nat) : Int) := rfl

theorem tmod_neg_left (m n : Nat) :
    Int.tmod (-(m : Int)) (n : Int) = -((m % n : Nat) : Int) := by
  cases m with
  | zero => simp
  | succ k => rfl

/-- Truncating division, written by sign and magnitude: the quotient's sign
is the XOR of the operand signs and its magnitude divides the magnitudes. -/
theorem tdiv_sign_repr (x y : Int) :
    Int.tdiv x y
      = if (decide (x < 0) ^^ decide (y < 0)) = true
        then -((x.natAbs / y.natAbs : Nat) : Int)
        else ((x.natAbs / y.natAbs : Nat) : Int) := by
  rcases lt_or_le x 0 with hx | hx <;> rcases lt_or_le y 0 with hy | hy
  · obtain ⟨nx, hx1, hx2⟩ : ∃ n : Nat, x = -(n : Int) ∧ x.natAbs = n :=
      ⟨x.natAbs, by omega, rfl⟩
    obtain ⟨ny, hy1, hy2⟩ : ∃ n : Nat, y = -(n : Int) ∧ y.natAbs = n :=
      ⟨y.natAbs, by omega, rfl⟩
    rw [decide_eq_true hx, decide_eq_true hy, if_neg (by decide), hx2, hy2, hx1, hy1,
      Int.neg_tdiv, Int.tdiv_neg, neg_neg, tdiv_ofNat]
  · obtain ⟨nx, hx1, hx2⟩ : ∃ n : Nat, x = -(n : Int) ∧ x.natAbs = n :=
      ⟨x.natAbs, by omega, rfl⟩
    obtain ⟨ny, hy1, hy2⟩ : ∃ n : Nat, y = (n : Int) ∧ y.natAbs = n :=
      ⟨y.natAbs, by omega, rfl⟩
    rw [decide_eq_true hx, decide_eq_false (not_lt.mpr hy), if_pos (by decide), hx2, hy2, hx1,
      hy1, Int.neg_tdiv, tdiv_ofNat]
  · obtain ⟨nx, hx1, hx2⟩ : ∃ n : Nat, x = (n : Int) ∧ x.natAbs = n :=
      ⟨x.natAbs, by omega, rfl⟩
    obtain ⟨ny, hy1, hy2⟩ : ∃ n : Nat, y = -(n : Int) ∧ y.natAbs = n :=
      ⟨y.natAbs, by omega, rfl⟩
    rw [decide_eq_false (not_lt.mpr hx), decide_eq_true hy, if_pos (by decide), hx2, hy2, hx1,
      hy1, Int.tdiv_neg, tdiv_ofNat]
  · obtain ⟨nx, hx1, hx2⟩ : ∃ n : Nat, x = (n : Int) ∧ x.natAbs = n :=
      ⟨x.natAbs, by omega, rfl⟩
    obtain ⟨ny, hy1, hy2⟩ : ∃ n : Nat, y = (n : Int) ∧ y.natAbs = n :=
      ⟨y.natAbs, by omega, rfl⟩
    rw [decide_eq_false (not_lt.mpr hx), decide_eq_false (not_lt.mpr hy), if_neg (by decide),
      hx2, hy2, hx1, hy1, tdiv_ofNat]

/-- Truncating remainder, written by sign and magnitude: the remainder
carries the dividend's sign over the magnitudes' remainder. -/
theorem tmod_sign_repr (x y : Int) :
    Int.tmod x y
      = if decide (x < 0) = true
        then -((x.natAbs % y.natAbs : Nat) : Int)
        else ((x.natAbs % y.natAbs : Nat) : Int) := by
  rcases lt_or_le x 0 with hx | hx <;> rcases lt_or_le y 0 with hy | hy
  · obtain ⟨nx, hx1, hx2⟩ : ∃ n : Nat, x = -(n : Int) ∧ x.natAbs = n :=
      ⟨x.natAbs, by omega, rfl⟩
    obtain ⟨ny, hy1, hy2⟩ : ∃ n : Nat, y = -(n : Int) ∧ y.natAbs = n :=
      ⟨y.natAbs, by omega, rfl⟩
    rw [decide_eq_true hx, if_pos (by decide), hx2, hy2, hx1, hy1, Int.tmod_neg, tmod_neg_left]
  · obtain ⟨nx, hx1, hx2⟩ : ∃ n : Nat, x = -(n : Int) ∧ x.natAbs = n :=
      ⟨x.natAbs, by omega, rfl⟩
    obtain ⟨ny, hy1, hy2⟩ : ∃ n : Nat, y = (n : Int) ∧ y.natAbs = n :=
      ⟨y.natAbs, by omega, rfl⟩
    rw [decide_eq_true hx, if_pos (by decide), hx2, hy2, hx1, hy1, tmod_neg_left]
  · obtain ⟨nx, hx1, hx2⟩ : ∃ n : Nat, x = (n : Int) ∧ x.natAbs = n :=
      ⟨x.natAbs, by omega, rfl⟩
    obtain ⟨ny, hy1, hy2⟩ : ∃ n : Nat, y = -(n : Int) ∧ y.natAbs = n :=
      ⟨y.natAbs, by omega, rfl⟩
    rw [decide_eq_false (not_lt.mpr hx), if_neg (by simp), hx2, hy2, hx1, hy1,
      Int.tmod_neg, tmod_ofNat]
  · obtain ⟨nx, hx1, hx2⟩ : ∃ n : Nat, x = (n : Int) ∧ x.natAbs = n :=
      ⟨x.natAbs, by omega, rfl⟩
    obtain ⟨ny, hy1, hy2⟩ : ∃ n : Nat, y = (n : Int) ∧ y.natAbs = n :=
      ⟨y.natAbs, by omega, rfl⟩
    rw [decide_eq_false (not_lt.mpr hx), if_neg (by simp), hx2, hy2, hx1, hy1, tmod_ofNat]

/-- The magnitude-conversion step of `Divider.div` (`Q = encode(-decode(Q))`
when the sign bit is set, unchanged otherwise): for a 32-bit pattern not
decoding to -2^31 the result holds the absolute value, at width 32. -/
theorem mag_bits (l : List Bool) (hl : l.length = 32)
    (hmin : TwosComplement.decode l ≠ -(2 ^ 31)) :
    bitsVal (if l.headD false = true then
        (TwosComplement.encode (-(TwosComplement.decode l)) 32).bits else l)
      = (TwosComplement.decode l).natAbs ∧
    (if l.headD false = true then
        (TwosComplement.encode (-(TwosComplement.decode l)) 32).bits else l).length = 32 := by
  rcases hh : l.headD false with _ | _
  · rw [if_neg (show ¬((false:Bool) = true) from by simp),
      TwosComplement.decode_of_head_false l hh]
    exact ⟨(Int.natAbs_ofNat _).symm, hl⟩
  · rw [if_pos (show (true:Bool) = true from rfl)]
    have hdec := TwosComplement.decode_of_head_true l hh
    have h1 := headD_true_le l hh
    have h2 := bitsVal_lt l
    rw [hl] at hdec h1 h2
    rw [show (32:Nat) - 1 = 31 from rfl] at h1
    have hpI : ((2:Nat) ^ 32 : Int) = (2:Int) ^ 32 := by push_cast; try ring
    have hr1 : -((2:Int) ^ (32 - 1)) ≤ -(TwosComplement.decode l) := by
      rw [show (32:Nat) - 1 = 31 from rfl]
      omega
    have hr2 : -(TwosComplement.decode l) ≤ (2:Int) ^ (32 - 1) - 1 := by
      rw [show (32:Nat) - 1 = 31 from rfl]
      omega
    obtain ⟨hval, hlen⟩ := encode_bits_val (-(TwosComplement.decode l)) 32 (by norm_num) hr1 hr2
    have hval2 : (bitsVal (TwosComplement.encode (-(TwosComplement.decode l)) 32).bits : Int)
        = -(TwosComplement.decode l) := by
      rw [hval]
      refine Int.emod_eq_of_lt (by omega) (by omega)
    exact ⟨by omega, hlen⟩

/-- Final sign fix-up of `Divider.div`, abstracted over the loop outputs:
given a raw remainder holding NA % NB and a raw quotient holding NA / NB,
the quotient fix-up applies the XOR sign and the remainder fix-up applies
the dividend sign unless the raw remainder is all-zero. -/
theorem div_fixup_spec (sa sb : Bool) (Rf Qf : List Bool) (NA NB : Nat)
    (hRfl : Rf.length = 32) (hQfl : Qf.length = 32)
    (hRv : bitsVal Rf = NA % NB) (hQv : bitsVal Qf = NA / NB)
    (hNA : NA ≤ 2 ^ 31 - 1) :
    TwosComplement.decode (if (sa ^^ sb) = true then
        (TwosComplement.encode (-(TwosComplement.decode Qf)) 32).bits else Qf)
      = (if (sa ^^ sb) = true then -((NA / NB : Nat) : Int) else ((NA / NB : Nat) : Int)) ∧
    (if (sa ^^ sb) = true then
        (TwosComplement.encode (-(TwosComplement.decode Qf)) 32).bits else Qf).length = 32 ∧
    TwosComplement.decode (if (sa && !(Rf.all (fun bb => bb == false))) = true then
        (TwosComplement.encode (-(TwosComplement.decode Rf)) 32).bits else Rf)
      = (if sa = true then -((NA % NB : Nat) : Int) else ((NA % NB : Nat) : Int)) ∧
    (if (sa && !(Rf.all (fun bb => bb == false))) = true then
        (TwosComplement.encode (-(TwosComplement.decode Rf)) 32).bits else Rf).length = 32 ∧
    (NA % NB = 0 → (if (sa && !(Rf.all (fun bb => bb == false))) = true then
        (TwosComplement.encode (-(TwosComplement.decode Rf)) 32).bits else Rf)
      = List.replicate 32 false) := by
  have hdiv_le : NA / NB ≤ 2 ^ 31 - 1 := le_trans (Nat.div_le_self _ _) hNA
  have hmod_le : NA % NB ≤ 2 ^ 31 - 1 := le_trans (Nat.mod_le _ _) hNA
  have hQfh : Qf.headD false = false := by
    apply (TwosComplement.headD_false_iff Qf (by omega)).mpr
    rw [hQfl, hQv, show (32:Nat) - 1 = 31 from rfl]
    omega
  have hRfh : Rf.headD false = false := by
    apply (TwosComplement.headD_false_iff Rf (by omega)).mpr
    rw [hRfl, hRv, show (32:Nat) - 1 = 31 from rfl]
    omega
  have hdecQ : TwosComplement.decode Qf = ((NA / NB : Nat) : Int) := by
    rw [TwosComplement.decode_of_head_false Qf hQfh, hQv]
  have hdecR : TwosComplement.decode Rf = ((NA % NB : Nat) : Int) := by
    rw [TwosComplement.decode_of_head_false Rf hRfh, hRv]
  have hq1 : -((2:Int) ^ (32 - 1)) ≤ -((NA / NB : Nat) : Int) := by
    rw [show (32:Nat) - 1 = 31 from rfl]
    omega
  have hq2 : -((NA / NB : Nat) : Int) ≤ (2:Int) ^ (32 - 1) - 1 := by
    rw [show (32:Nat) - 1 = 31 from rfl]
    omega
  have hr1 : -((2:Int) ^ (32 - 1)) ≤ -((NA % NB : Nat) : Int) := by
    rw [show (32:Nat) - 1 = 31 from rfl]
    omega
  have hr2 : -((NA % NB : Nat) : Int) ≤ (2:Int) ^ (32 - 1) - 1 := by
    rw [show (32:Nat) - 1 = 31 from rfl]
    omega
  refine ⟨?_, ?_, ?_, ?_, ?_⟩
  · rcases hx : sa ^^ sb with _ | _
    · rw [if_neg (show ¬((false:Bool) = true) from by simp),
        if_neg (show ¬((false:Bool) = true) from by simp)]
      exact hdecQ
    · rw [if_pos (show (true:Bool) = true from rfl),
        if_pos (show (true:Bool) = true from rfl), hdecQ]
      exact (TwosComplement.encode_decode_in_range 32 (by norm_num) _ hq1 hq2).1
  · rcases hx : sa ^^ sb with _ | _
    · rw [if_neg (show ¬((false:Bool) = true) from by simp)]
      exact hQfl
    · rw [if_pos (show (true:Bool) = true from rfl), hdecQ]
      exact (encode_bits_val (-((NA / NB : Nat) : Int)) 32 (by norm_num) hq1 hq2).2
  · rcases hsa : sa with _ | _
    · rw [if_neg (show ¬((false && !(Rf.all (fun bb => bb == false))) = true) from by simp),
        if_neg (show ¬((false:Bool) = true) from by simp)]
      exact hdecR
    · rcases hz : Rf.all (fun bb => bb == false) with _ | _
      · rw [if_pos (show (true && !false) = true from rfl),
          if_pos (show (true:Bool) = true from rfl), hdecR]
        exact (TwosComplement.encode_decode_in_range 32 (by norm_num) _ hr1 hr2).1
      · rw [if_neg (show ¬((true && !true) = true) from by simp),
          if_pos (show (true:Bool) = true from rfl), hdecR]
        have h0 : bitsVal Rf = 0 := (all_beq_false_iff Rf).mp hz
        omega
  · rcases hsa : sa with _ | _
    · rw [if_neg (show ¬((false && !(Rf.all (fun bb => bb == false))) = true) from by simp)]
      exact hRfl
    · rcases hz : Rf.all (fun bb => bb == false) with _ | _
      · rw [if_pos (show (true && !false) = true from rfl), hdecR]
        exact (encode_bits_val (-((NA % NB : Nat) : Int)) 32 (by norm_num) hr1 hr2).2
      · rw [if_neg (show ¬((true && !true) = true) from by simp)]
        exact hRfl
  · intro hm0
    have hRf0 : bitsVal Rf = 0 := by omega
    have hall : (Rf.all (fun bb => bb == false)) = true := (all_beq_false_iff Rf).mpr hRf0
    rw [hall, if_neg (show ¬((sa && !true) = true) from by simp)]
    have hrep := (bitsVal_eq_zero_iff Rf).mp hRf0
    rwa [hRfl] at hrep

/-- C4: the divisor-is-zero special case returns an all-ones quotient with
the dividend unchanged as remainder, and the INT_MIN / -1 special case
returns INT_MIN with a zero remainder; neither runs the division loop or
fails. -/
theorem c4_div_special_cases (a : List Bool) (ha : a.length = 32) :
    Divider.div a (List.replicate 32 false)
        = { quotient := List.replicate 32 true, remainder := a } ∧
    Divider.div (TwosComplement.encode (-(2 ^ 31)) 32).bits (TwosComplement.encode (-1) 32).bits
      = { quotient := (TwosComplement.encode (-(2 ^ 31)) 32).bits,
          remainder := List.replicate 32 false } := by
  constructor
  · have hz : ((List.replicate 32 false).all (fun bb => bb == false)) = true := by decide
    rw [Divider.div, if_pos hz, ha]
  · decide

/-- Witness for C4 at the spec's example dividend 100: quotient is the
all-ones (-1) pattern and the remainder is the dividend's pattern. -/
theorem c4_div_special_cases_witness :
    (TwosComplement.encode 100 32).bits.length = 32 ∧
    Divider.div (TwosComplement.encode 100 32).bits (List.replicate 32 false)
      = { quotient := List.replicate 32 true,
          remainder := (TwosComplement.encode 100 32).bits } :=
  ⟨by decide, (c4_div_special_cases (TwosComplement.encode 100 32).bits (by decide)).1⟩

section

attribute [local irreducible] Divider.divLoop

/-- C3 (amended): for 32-bit operands with a nonzero divisor and neither
operand decoding to -2^31, `Divider.div` returns the truncating quotient
and the dividend-signed remainder of the decoded values (RISC-V DIV/REM
semantics), a remainder of exactly zero comes back as the all-zero pattern,
and both outputs are 32 bits wide. -/
theorem c3_div_truncating (a b : List Bool)
    (ha : a.length = 32) (hb : b.length = 32)
    (hvb0 : TwosComplement.decode b ≠ 0)
    (hva : TwosComplement.decode a ≠ -(2 ^ 31))
    (hvb : TwosComplement.decode b ≠ -(2 ^ 31)) :
    TwosComplement.decode (Divider.div a b).quotient
        = Int.tdiv (TwosComplement.decode a) (TwosComplement.decode b) ∧
    TwosComplement.decode (Divider.div a b).remainder
        = Int.tmod (TwosComplement.decode a) (TwosComplement.decode b) ∧
    (Int.tmod (TwosComplement.decode a) (TwosComplement.decode b) = 0 →
      (Divider.div a b).remainder = List.replicate 32 false) ∧
    (Divider.div a b).quotient.length = 32 ∧
    (Divider.div a b).remainder.length = 32 := by
  have hra := decode_range a (by omega)
  have hrb := decode_range b (by omega)
  rw [ha] at hra
  rw [hb] at hrb
  rw [show (32:Nat) - 1 = 31 from rfl] at hra hrb
  have hbne : (b.all (fun bb => bb == false)) = false := by
    rcases hall : b.all (fun bb => bb == false) with _ | _
    · rfl
    · exact absurd ((decode_eq_zero_iff b).mpr ((all_beq_false_iff b).mp hall)) hvb0
  have hmin_pair : ¬(a = (TwosComplement.encode (-(2 ^ 31)) 32).bits
      ∧ b = (TwosComplement.encode (-1) 32).bits) := by
    intro hcon
    apply hva
    rw [hcon.1]
    decide
  obtain ⟨hQ0v, hQ0l⟩ := mag_bits a ha hva
  obtain ⟨hMv, hMl⟩ := mag_bits b hb hvb
  have hNA : (TwosComplement.decode a).natAbs ≤ 2 ^ 31 - 1 := by omega
  obtain ⟨hRfl, hQfl, hRv0, hQv0⟩ := divLoop_invariant
    (if b.headD false = true then
      (TwosComplement.encode (-(TwosComplement.decode b)) 32).bits else b)
    (if a.headD false = true then
      (TwosComplement.encode (-(TwosComplement.decode a)) 32).bits else a)
    hMl hQ0l (by rw [hMv]; omega) (by rw [hMv]; omega) 32 le_rfl
  rw [show (32:Nat) - 32 = 0 from rfl, pow_zero, Nat.div_one] at hRv0
  rw [show (32:Nat) - 32 = 0 from rfl, pow_zero, Nat.mod_one, Nat.div_one, Nat.zero_mul,
    Nat.zero_add] at hQv0
  rw [hQ0v, hMv] at hRv0 hQv0
  obtain ⟨F1, F2, F3, F4, F5⟩ := div_fixup_spec (a.headD false) (b.headD false)
    _ _ _ _ hRfl hQfl hRv0 hQv0 hNA
  have hsa := headD_decide_decode_neg a (by omega)
  have hsb := headD_decide_decode_neg b (by omega)
  have htdiv := tdiv_sign_repr (TwosComplement.decode a) (TwosComplement.decode b)
  have htmod := tmod_sign_repr (TwosComplement.decode a) (TwosComplement.decode b)
  rw [← hsa, ← hsb] at htdiv
  rw [← hsa] at htmod
  simp only [Divider.div, MDU.is_neg, ha]
  rw [if_neg (show ¬((b.all (fun bb => bb == false)) = true) from by rw [hbne]; simp)]
  rw [if_neg hmin_pair]
  refine ⟨?_, ?_, ?_, ?_, ?_⟩
  · rw [F1, htdiv, hsa, hsb]
  · rw [F3, htmod, hsa]
  · intro h0
    have hm0 : (TwosComplement.decode a).natAbs % (TwosComplement.decode b).natAbs = 0 := by
      rw [htmod] at h0
      rcases hs : a.headD false with _ | _
      · rw [hs, if_neg (show ¬((false:Bool) = true) from by simp)] at h0
        omega
      · rw [hs, if_pos (show (true:Bool) = true from rfl)] at h0
        omega
    exact F5 hm0
  · exact F2
  · exact F4

end

/-- Counterexample to C3 as stated: at dividend -2^31 and divisor 2 (a pair
the claim covers), the quotient decodes to -(2^31 - 1)/2 = -1073741823, not
the truncated -2^31/2 = -1073741824 — the magnitude conversion
`encode(-decode(Q))` clamps abs(-2^31) to 2^31 - 1. -/
theorem c3_counterexample :
    TwosComplement.decode (Divider.div (TwosComplement.encode (-(2 ^ 31)) 32).bits
        (TwosComplement.encode 2 32).bits).quotient
      ≠ Int.tdiv (TwosComplement.decode (TwosComplement.encode (-(2 ^ 31)) 32).bits)
          (TwosComplement.decode (TwosComplement.encode 2 32).bits) := by
  decide

/-- Witness for C3's amended statement at -13 / 3 (quotient -4, remainder
-1, matching the source's own test expectations). -/
theorem c3_div_truncating_witness :
    TwosComplement.decode (TwosComplement.encode 3 32).bits ≠ 0 ∧
    TwosComplement.decode (Divider.div (TwosComplement.encode (-13) 32).bits
        (TwosComplement.encode 3 32).bits).quotient
      = Int.tdiv (TwosComplement.decode (TwosComplement.encode (-13) 32).bits)
          (TwosComplement.decode (TwosComplement.encode 3 32).bits) ∧
    TwosComplement.decode (Divider.div (TwosComplement.encode (-13) 32).bits
        (TwosComplement.encode 3 32).bits).remainder
      = Int.tmod (TwosComplement.decode (TwosComplement.encode (-13) 32).bits)
          (TwosComplement.decode (TwosComplement.encode 3 32).bits) := by
  have h := c3_div_truncating (TwosComplement.encode (-13) 32).bits
    (TwosComplement.encode 3 32).bits (by decide) (by decide) (by decide) (by decide) (by decide)
  exact ⟨by decide, h.1, h.2.1⟩

namespace FloatArithmetic

/-- Failures of the float entry points: the explicit
`ValueError("Input must be 32-bit BitVector")` of `_get_fields`, and an ALU
error bubbling out of the mantissa add/sub (unreachable on 24-bit
mantissas). -/
inductive FloatError
  | widthError
  | aluError
deriving DecidableEq

/-- The `flags` dict of `FloatArithmetic`: `none` models an absent key
(`_repack` returns dicts that omit some of the three keys). -/
structure FloatFlags where
  overflow : Option Nat
  underflow : Option Nat
  invalid : Option Nat
deriving DecidableEq

/-- The field record returned by `FloatArithmetic._get_fields`. -/
structure FloatFields where
  sign : Bool
  exp_bits : List Bool
  exp_val : Int
  mantissa_24 : List Bool
  is_zero : Bool
  is_inf : Bool
  is_nan : Bool
deriving DecidableEq

/-- Result record of `add`/`sub`/`mul`/`_repack`: result bits and flags; the
`trace` list is omitted. -/
structure FloatResult where
  result : List Bool
  flags : FloatFlags
deriving DecidableEq

/-- `FloatArithmetic._get_fields` (`part7_float_arithmetic.py`): width
check, then sign / exponent / mantissa extraction, the implicit leading 1,
the raw exponent via `decode(zero_extend(exp_bits, 32))`, and the
special-value classification; a zero input zeroes the 24-bit mantissa. -/
def get_fields (bits : List Bool) : Except FloatError FloatFields :=
  if bits.length ≠ 32 then .error .widthError
  else
    let sign := bits.headD false
    let exp_bits := (bits.drop 1).take 8
    let mantissa_bits := bits.drop 9
    let normalized_mantissa := true :: mantissa_bits
    let exp_val := TwosComplement.decode (TwosComplement.zero_extend exp_bits 32)
    let is_zero := decide (exp_val = 0) && mantissa_bits.all (fun bb => bb == false)
    let is_inf := decide (exp_val = 255) && mantissa_bits.all (fun bb => bb == false)
    let is_nan := decide (exp_val = 255) && mantissa_bits.any (fun bb => bb == true)
    let normalized_mantissa := if is_zero then List.replicate 24 false else normalized_mantissa
    .ok { sign := sign, exp_bits := exp_bits, exp_val := exp_val,
          mantissa_24 := normalized_mantissa, is_zero := is_zero, is_inf := is_inf,
          is_nan := is_nan }

/-- `FloatArithmetic._repack`: exponent overflow saturates to the signed
infinity pattern (flags dict holding only `overflow`), underflow to signed
zero (only `underflow`), otherwise the fields are concatenated after
dropping the implicit 1. -/
def repack (sign : Bool) (exp_val : Int) (mantissa_24 : List Bool) : FloatResult :=
  if 255 ≤ exp_val then
    { result := (BitVector.from_hex ['0','x','7','F','8','0','0','0','0','0']).set 0 sign,
      flags := { overflow := some 1, underflow := none, invalid := none } }
  else if exp_val ≤ 0 then
    { result := (List.replicate 32 false).set 0 sign,
      flags := { overflow := none, underflow := some 1, invalid := none } }
  else
    let mantissa_23 := mantissa_24.tail
    let exp_bits := (TwosComplement.encode exp_val 8).bits
    { result := sign :: (exp_bits ++ mantissa_23),
      flags := { overflow := some 0, underflow := some 0, invalid := none } }

/-- `FloatArithmetic.add` (`part7_float_arithmetic.py`): special-value
table first (NaN, the three infinity rows, the two zero rows), then
exponent alignment (the Python shift amount, a nonnegative host int, is the
`toNat`), mantissa add/sub through the ALU (with the source's simplified
negative-difference handling that only flips the sign), leading-one
normalization (`findIdx?` plays the scanning loop over indices 1..23), and
`_repack`. -/
def add (a_bits b_bits : List Bool) : Except FloatError FloatResult :=
  match get_fields a_bits, get_fields b_bits with
  | .error e, _ => .error e
  | .ok _, .error e => .error e
  | .ok a, .ok b =>
    let flags : FloatFlags := { overflow := some 0, underflow := some 0, invalid := some 0 }
    if (a.is_nan || b.is_nan) = true then
      .ok { result := BitVector.from_hex ['0','x','7','F','C','0','0','0','0','0'],
            flags := { flags with invalid := some 1 } }
    else if (a.is_inf || b.is_inf) = true then
      if (a.is_inf && b.is_inf && (a.sign == b.sign)) = true then
        .ok { result := BitVector.from_hex (if a.sign = false
                then ['0','x','7','F','8','0','0','0','0','0']
                else ['0','x','F','F','8','0','0','0','0','0']),
              flags := flags }
      else if (a.is_inf && b.is_inf && !(a.sign == b.sign)) = true then
        .ok { result := BitVector.from_hex ['0','x','7','F','C','0','0','0','0','0'],
              flags := { flags with invalid := some 1 } }
      else
        let inf := if a.is_inf = true then a else b
        .ok { result := BitVector.from_hex (if inf.sign = false
                then ['0','x','7','F','8','0','0','0','0','0']
                else ['0','x','F','F','8','0','0','0','0','0']),
              flags := flags }
    else if a.is_zero = true then .ok { result := b_bits, flags := flags }
    else if b.is_zero = true then .ok { result := a_bits, flags := flags }
    else
      let aligned : Int × List Bool × List Bool × Bool :=
        if b.exp_val < a.exp_val then
          (a.exp_val, a.mantissa_24,
           Shifter.shift_right_logical b.mantissa_24 (a.exp_val - b.exp_val).toNat, a.sign)
        else
          (b.exp_val,
           Shifter.shift_right_logical a.mantissa_24 (b.exp_val - a.exp_val).toNat,
           b.mantissa_24, b.sign)
      let exp_res := aligned.1
      let m_a := aligned.2.1
      let m_b := aligned.2.2.1
      let sign_res := aligned.2.2.2
      let core : Except FloatError (List Bool × Bool × Int) :=
        if a.sign != b.sign then
          match ALU.sub m_a m_b with
          | .error _ => .error .aluError
          | .ok alu_result =>
            if alu_result.C = false then .ok (alu_result.result, !sign_res, exp_res)
            else .ok (alu_result.result, sign_res, exp_res)
        else
          match ALU.add m_a m_b with
          | .error _ => .error .aluError
          | .ok alu_result =>
            if alu_result.C = true then
              .ok ((Shifter.shift_right_logical alu_result.result 1).set 0 true, a.sign,
                   exp_res + 1)
            else .ok (alu_result.result, a.sign, exp_res)
      match core with
      | .error e => .error e
      | .ok p =>
        let mantissa_res := p.1
        let sign_res2 := p.2.1
        let exp_res2 := p.2.2
        let norm : List Bool × Bool × Int :=
          if mantissa_res.headD false = false then
            let shift_needed := match (mantissa_res.drop 1).findIdx? (fun bit => bit) with
              | some j => j + 1
              | none => 0
            if 0 < shift_needed then
              (Shifter.shift_left_logical mantissa_res shift_needed, sign_res2,
               exp_res2 - (shift_needed : Int))
            else (mantissa_res, false, 0)
          else (mantissa_res, sign_res2, exp_res2)
        .ok (repack norm.2.1 norm.2.2 norm.1)

/-- `FloatArithmetic.sub`: flips B's sign bit and adds (`bits[0]` totalized
by `headD`). -/
def sub (a_bits b_bits : List Bool) : Except FloatError FloatResult :=
  let b_neg_bits := b_bits.set 0 (!(b_bits.headD false))
  add a_bits b_neg_bits

/-- `FloatArithmetic.mul` (`part7_float_arithmetic.py`): NaN and
infinity-times-zero rows, the signed-infinity row, then sign XOR, biased
exponent addition, 24x24 mantissa multiplication through `MDU.mul` on
zero-extended operands, the [16:40] slice of hi:lo, the one-step
normalization and `_repack`. -/
def mul (a_bits b_bits : List Bool) : Except FloatError FloatResult :=
  match get_fields a_bits, get_fields b_bits with
  | .error e, _ => .error e
  | .ok _, .error e => .error e
  | .ok a, .ok b =>
    let flags : FloatFlags := { overflow := some 0, underflow := some 0, invalid := some 0 }
    if (a.is_nan || b.is_nan) = true then
      .ok { result := BitVector.from_hex ['0','x','7','F','C','0','0','0','0','0'],
            flags := { flags with invalid := some 1 } }
    else if (a.is_inf || b.is_inf) = true then
      if ((a.is_inf && b.is_zero) || (b.is_inf && a.is_zero)) = true then
        .ok { result := BitVector.from_hex ['0','x','7','F','C','0','0','0','0','0'],
              flags := { flags with invalid := some 1 } }
      else
        let sign_res := a.sign ^^ b.sign
        .ok { result := BitVector.from_hex (if sign_res = false
                then ['0','x','7','F','8','0','0','0','0','0']
                else ['0','x','F','F','8','0','0','0','0','0']),
              flags := flags }
    else
      let sign_res := a.sign ^^ b.sign
      let bias : Int := 127
      let exp_res := a.exp_val + b.exp_val - bias
      let m_a_32 := TwosComplement.zero_extend a.mantissa_24 32
      let m_b_32 := TwosComplement.zero_extend b.mantissa_24 32
      let mul_result := MDU.mul m_a_32 m_b_32
      let mantissa_64 := mul_result.hi ++ mul_result.rd
      let mantissa_res_24 := (mantissa_64.drop 16).take 24
      let normed : List Bool × Int :=
        if mantissa_res_24.headD false = true then (mantissa_res_24, exp_res)
        else (Shifter.shift_left_logical mantissa_res_24 1, exp_res - 1)
      .ok (repack sign_res normed.2 normed.1)

end FloatArithmetic

theorem any_beq_true_eq_not_all_false (l : List Bool) :
    l.any (fun bb => bb == true) = !(l.all (fun bb => bb == false)) := by
  induction l with
  | nil => rfl
  | cons b t ih =>
    cases b
    · simpa using ih
    · rfl

/-- The classification flags produced by `_get_fields` are consistent: an
infinity is not a NaN, and a zero is neither a NaN nor an infinity. -/
theorem get_fields_flags (bits : List Bool) (f : FloatArithmetic.FloatFields)
    (h : FloatArithmetic.get_fields bits = .ok f) :
    (f.is_inf = true → f.is_nan = false) ∧
    (f.is_zero = true → f.is_nan = false ∧ f.is_inf = false) := by
  rw [FloatArithmetic.get_fields] at h
  by_cases hL : bits.length ≠ 32
  · rw [if_pos hL] at h
    exact Except.noConfusion h
  · rw [if_neg hL] at h
    dsimp only at h
    have hR := Except.ok.inj h
    subst hR
    constructor
    · intro hinf
      dsimp only at hinf ⊢
      rw [Bool.and_eq_true] at hinf
      rw [any_beq_true_eq_not_all_false, hinf.2]
      simp
    · intro hz
      dsimp only at hz ⊢
      rw [Bool.and_eq_true, decide_eq_true_eq] at hz
      have h255 : decide (TwosComplement.decode (TwosComplement.zero_extend
          ((bits.drop 1).take 8) 32) = 255) = false := by
        rw [decide_eq_false_iff_not]
        omega
      constructor
      · rw [h255, Bool.false_and]
      · rw [h255, Bool.false_and]

/-- C5: `FloatArithmetic.add` and `FloatArithmetic.mul` follow the
special-value table, rows taken in the source's precedence order: either
operand NaN gives the quiet-NaN pattern with the invalid flag set (both
operations); two infinities of equal sign give that signed infinity; two
infinities of opposite sign give quiet NaN with invalid set; exactly one
infinite operand (the other not special-cased earlier) gives that operand's
signed infinity; a zero operand (the other operand neither NaN nor
infinite) gives the other operand's bit pattern unchanged; and mul of an
infinity with a zero gives quiet NaN with invalid set. -/
theorem c5_float_special_values (x y : List Bool) (fx fy : FloatArithmetic.FloatFields)
    (hx : FloatArithmetic.get_fields x = .ok fx)
    (hy : FloatArithmetic.get_fields y = .ok fy) :
    ((fx.is_nan || fy.is_nan) = true →
      FloatArithmetic.add x y
          = .ok { result := BitVector.from_hex ['0','x','7','F','C','0','0','0','0','0'],
                  flags := { overflow := some 0, underflow := some 0, invalid := some 1 } } ∧
      FloatArithmetic.mul x y
          = .ok { result := BitVector.from_hex ['0','x','7','F','C','0','0','0','0','0'],
                  flags := { overflow := some 0, underflow := some 0, invalid := some 1 } }) ∧
    (fx.is_inf = true → fy.is_inf = true → fx.sign = fy.sign →
      FloatArithmetic.add x y
        = .ok { result := BitVector.from_hex (if fx.sign = false
                  then ['0','x','7','F','8','0','0','0','0','0']
                  else ['0','x','F','F','8','0','0','0','0','0']),
                flags := { overflow := some 0, underflow := some 0, invalid := some 0 } }) ∧
    (fx.is_inf = true → fy.is_inf = true → fx.sign ≠ fy.sign →
      FloatArithmetic.add x y
        = .ok { result := BitVector.from_hex ['0','x','7','F','C','0','0','0','0','0'],
                flags := { overflow := some 0, underflow := some 0, invalid := some 1 } }) ∧
    (fx.is_inf = true → fy.is_nan = false → fy.is_inf = false →
      FloatArithmetic.add x y
        = .ok { result := BitVector.from_hex (if fx.sign = false
                  then ['0','x','7','F','8','0','0','0','0','0']
                  else ['0','x','F','F','8','0','0','0','0','0']),
                flags := { overflow := some 0, underflow := some 0, invalid := some 0 } }) ∧
    (fy.is_inf = true → fx.is_nan = false → fx.is_inf = false →
      FloatArithmetic.add x y
        = .ok { result := BitVector.from_hex (if fy.sign = false
                  then ['0','x','7','F','8','0','0','0','0','0']
                  else ['0','x','F','F','8','0','0','0','0','0']),
                flags := { overflow := some 0, underflow := some 0, invalid := some 0 } }) ∧
    (fx.is_zero = true → fy.is_nan = false → fy.is_inf = false →
      FloatArithmetic.add x y
        = .ok { result := y,
                flags := { overflow := some 0, underflow := some 0, invalid := some 0 } }) ∧
    (fy.is_zero = true → fx.is_nan = false → fx.is_inf = false → fx.is_zero = false →
      FloatArithmetic.add x y
        = .ok { result := x,
                flags := { overflow := some 0, underflow := some 0, invalid := some 0 } }) ∧
    (fx.is_inf = true → fy.is_zero = true →
      FloatArithmetic.mul x y
        = .ok { result := BitVector.from_hex ['0','x','7','F','C','0','0','0','0','0'],
                flags := { overflow := some 0, underflow := some 0, invalid := some 1 } }) ∧
    (fy.is_inf = true → fx.is_zero = true →
      FloatArithmetic.mul x y
        = .ok { result := BitVector.from_hex ['0','x','7','F','C','0','0','0','0','0'],
                flags := { overflow := some 0, underflow := some 0, invalid := some 1 } }) := by
  have hXf := get_fields_flags x fx hx
  have hYf := get_fields_flags y fy hy
  refine ⟨?_, ?_, ?_, ?_, ?_, ?_, ?_, ?_, ?_⟩
  · intro hnan
    constructor
    · simp only [FloatArithmetic.add, hx, hy]
      rw [if_pos hnan]
    · simp only [FloatArithmetic.mul, hx, hy]
      rw [if_pos hnan]
  · intro hix hiy hs
    have hnx := hXf.1 hix
    have hny := hYf.1 hiy
    simp only [FloatArithmetic.add, hx, hy]
    rw [if_neg (show ¬((fx.is_nan || fy.is_nan) = true) from by rw [hnx, hny]; simp),
      if_pos (show (fx.is_inf || fy.is_inf) = true from by rw [hix]; simp),
      if_pos (show (fx.is_inf && fy.is_inf && (fx.sign == fy.sign)) = true from by
        rw [hix, hiy, hs]; simp)]
  · intro hix hiy hs
    have hnx := hXf.1 hix
    have hny := hYf.1 hiy
    simp only [FloatArithmetic.add, hx, hy]
    rw [if_neg (show ¬((fx.is_nan || fy.is_nan) = true) from by rw [hnx, hny]; simp),
      if_pos (show (fx.is_inf || fy.is_inf) = true from by rw [hix]; simp),
      if_neg (show ¬((fx.is_inf && fy.is_inf && (fx.sign == fy.sign)) = true) from by
        simp [hix, hiy, hs]),
      if_pos (show (fx.is_inf && fy.is_inf && !(fx.sign == fy.sign)) = true from by
        simp [hix, hiy, hs])]
  · intro hix hny hiy
    have hnx := hXf.1 hix
    simp only [FloatArithmetic.add, hx, hy]
    rw [if_neg (show ¬((fx.is_nan || fy.is_nan) = true) from by rw [hnx, hny]; simp),
      if_pos (show (fx.is_inf || fy.is_inf) = true from by rw [hix]; simp),
      if_neg (show ¬((fx.is_inf && fy.is_inf && (fx.sign == fy.sign)) = true) from by
        simp [hiy]),
      if_neg (show ¬((fx.is_inf && fy.is_inf && !(fx.sign == fy.sign)) = true) from by
        simp [hiy]),
      if_pos hix]
  · intro hiy hnx hix
    have hny := hYf.1 hiy
    simp only [FloatArithmetic.add, hx, hy]
    rw [if_neg (show ¬((fx.is_nan || fy.is_nan) = true) from by rw [hnx, hny]; simp),
      if_pos (show (fx.is_inf || fy.is_inf) = true from by rw [hiy]; simp),
      if_neg (show ¬((fx.is_inf && fy.is_inf && (fx.sign == fy.sign)) = true) from by
        simp [hix]),
      if_neg (show ¬((fx.is_inf && fy.is_inf && !(fx.sign == fy.sign)) = true) from by
        simp [hix]),
      if_neg (show ¬(fx.is_inf = true) from by rw [hix]; simp)]
  · intro hzx hny hiy
    have hnx := (hXf.2 hzx).1
    have hix := (hXf.2 hzx).2
    simp only [FloatArithmetic.add, hx, hy]
    rw [if_neg (show ¬((fx.is_nan || fy.is_nan) = true) from by rw [hnx, hny]; simp),
      if_neg (show ¬((fx.is_inf || fy.is_inf) = true) from by rw [hix, hiy]; simp),
      if_pos hzx]
  · intro hzy hnx hix hzx
    have hny := (hYf.2 hzy).1
    have hiy := (hYf.2 hzy).2
    simp only [FloatArithmetic.add, hx, hy]
    rw [if_neg (show ¬((fx.is_nan || fy.is_nan) = true) from by rw [hnx, hny]; simp),
      if_neg (show ¬((fx.is_inf || fy.is_inf) = true) from by rw [hix, hiy]; simp),
      if_neg (show ¬(fx.is_zero = true) from by rw [hzx]; simp),
      if_pos hzy]
  · intro hix hzy
    have hnx := hXf.1 hix
    have hny := (hYf.2 hzy).1
    simp only [FloatArithmetic.mul, hx, hy]
    rw [if_neg (show ¬((fx.is_nan || fy.is_nan) = true) from by rw [hnx, hny]; simp),
      if_pos (show (fx.is_inf || fy.is_inf) = true from by rw [hix]; simp),
      if_pos (show ((fx.is_inf && fy.is_zero) || (fy.is_inf && fx.is_zero)) = true from by
        rw [hix, hzy]; simp)]
  · intro hiy hzx
    have hny := hYf.1 hiy
    have hnx := (hXf.2 hzx).1
    simp only [FloatArithmetic.mul, hx, hy]
    rw [if_neg (show ¬((fx.is_nan || fy.is_nan) = true) from by rw [hnx, hny]; simp),
      if_pos (show (fx.is_inf || fy.is_inf) = true from by rw [hiy]; simp),
      if_pos (show ((fx.is_inf && fy.is_zero) || (fy.is_inf && fx.is_zero)) = true from by
        rw [hiy, hzx]; simp)]

/-- Witness for C5 at the spec's example `add(pack(+inf), pack(-inf))`:
the two canonical infinity patterns classify as infinities of opposite
sign and their sum is the quiet-NaN pattern with the invalid flag set. -/
theorem c5_float_special_values_witness :
    FloatArithmetic.get_fields (BitVector.from_hex ['0','x','7','F','8','0','0','0','0','0'])
      = .ok { sign := false, exp_bits := List.replicate 8 true, exp_val := 255,
              mantissa_24 := true :: List.replicate 23 false,
              is_zero := false, is_inf := true, is_nan := false } ∧
    FloatArithmetic.get_fields (BitVector.from_hex ['0','x','F','F','8','0','0','0','0','0'])
      = .ok { sign := true, exp_bits := List.replicate 8 true, exp_val := 255,
              mantissa_24 := true :: List.replicate 23 false,
              is_zero := false, is_inf := true, is_nan := false } ∧
    FloatArithmetic.add (BitVector.from_hex ['0','x','7','F','8','0','0','0','0','0'])
        (BitVector.from_hex ['0','x','F','F','8','0','0','0','0','0'])
      = .ok { result := BitVector.from_hex ['0','x','7','F','C','0','0','0','0','0'],
              flags := { overflow := some 0, underflow := some 0, invalid := some 1 } } := by
  refine ⟨rfl, rfl, ?_⟩
  have h := c5_float_special_values
    (BitVector.from_hex ['0','x','7','F','8','0','0','0','0','0'])
    (BitVector.from_hex ['0','x','F','F','8','0','0','0','0','0'])
    { sign := false, exp_bits := List.replicate 8 true, exp_val := 255,
      mantissa_24 := true :: List.replicate 23 false,
      is_zero := false, is_inf := true, is_nan := false }
    { sign := true, exp_bits := List.replicate 8 true, exp_val := 255,
      mantissa_24 := true :: List.replicate 23 false,
      is_zero := false, is_inf := true, is_nan := false }
    rfl rfl
  exact h.2.2.1 rfl rfl (by decide)

end RV
